import Mathlib

/-! # Verification of the zlib reference encoder (`tools/zlibref/main.cpp`)

A shallow embedding of the encoder pipeline of `tools/zlibref/main.cpp`:

* `CompressedSize`, `JumpBit`, `CompressSub` (the bit writer),
* `ZlibReference::Compress` (the encode loop and the stored fallback),
* `ZlibReference::PopulateJumpTable` (the decode table builder).

Conventions of the embedding.

* `uint8_t`, `uint32_t` and `size_t` values are natural numbers; every place
  where the C++ arithmetic can wrap carries an explicit `% 2 ^ 32`
  (or `% 2 ^ 64`, `% 256`).  Sizes of vectors are below `2 ^ 63`, so sums of
  two vector sizes are written without a modulus.
* A byte buffer is a `List Nat`; the source only ever stores values below 256.
* A call that writes through a pointer returns `Option`: `none` stands for an
  access outside the storage the pointer refers to (undefined behaviour in the
  source), `some` carries the returned integer and the buffer afterwards.
-/

namespace ZlibRef

/-! ## Machine integers -/

/-- Value of `static_cast<int32_t>(x)` for an unsigned `x`. -/
def toInt32 (x : Nat) : Int :=
  if x % 2 ^ 32 < 2 ^ 31 then ((x % 2 ^ 32 : Nat) : Int)
  else ((x % 2 ^ 32 : Nat) : Int) - 2 ^ 32

/-- Source: `constexpr size_t CompressedSize(size_t bits) { return (bits + 7) / 8; }`,
with `size_t` of 64 bits. -/
def CompressedSize (bits : Nat) : Nat := ((bits + 7) % 2 ^ 64) / 8

/-- Source: `JumpBit(table, i) = (table[i / 8] >> (i & 7)) & 1U`.
`none` when `table[i / 8]` lies outside the table. -/
def JumpBit (table : List Nat) (i : Nat) : Option Nat :=
  (table[i / 8]?).map fun b => (b >>> (i &&& 7)) &&& 1

/-- One iteration of the loop of `CompressSub`: the read-modify-write of
destination bit `read + i` (the sum is a `uint32_t`). -/
def writeBit (pattern : List Nat) (read i : Nat) (out : List Nat) : Option (List Nat) :=
  let shift := ((read + i) % 2 ^ 32) &&& 7
  let index := ((read + i) % 2 ^ 32) / 8
  let invMask := (2 ^ 32 - 1) ^^^ ((1 <<< shift) % 2 ^ 32)
  match JumpBit pattern i, out[index]? with
  | some jb, some d =>
      let bit := (jb <<< shift) % 256
      some (out.set index (((invMask &&& d) + bit) % 256))
  | _, _ => none

/-- The loop `for (i = i0; i < i0 + k; ++i)` of `CompressSub`. -/
def writeBits (pattern : List Nat) (read : Nat) : Nat → Nat → List Nat → Option (List Nat)
  | _, 0, out => some out
  | i, k + 1, out => (writeBit pattern read i out).bind (writeBits pattern read (i + 1) k)

/-- Source: `int32_t CompressSub(const uint8_t* pattern, uint32_t read, uint32_t elem,
int8_t* out, uint32_t out_sz)`.  The list `out` is the storage `out` points to,
`out_sz` is the size the caller passes. -/
def CompressSub (pattern : List Nat) (read elem : Nat) (out : List Nat) (out_sz : Nat) :
    Option (Int × List Nat) :=
  if CompressedSize elem > 4 then some (-1, out)
  else if CompressedSize ((read + elem) % 2 ^ 32) > out_sz then some (-1, out)
  else (writeBits pattern read 0 elem out).map fun o => (0, o)

/-! ## The encoder -/

/-- The return statement of `Compress` that was reached: the packed result
(`return read + 8`), the stored fallback (`return input.size()`), or one of the
`return -1` statements. -/
inductive Mode where
  | Packed
  | Stored
  | Failure
  deriving DecidableEq, Repr

/-- What a call of `Compress` leaves behind: the statement it returned from,
the returned `int32_t` and the output buffer. -/
structure Result where
  mode : Mode
  value : Int
  out : List Nat
  deriving DecidableEq, Repr

/-- Index `symbol + 0x180` of the code length of input byte `b`, where
`symbol = static_cast<int8_t>(b)`. -/
def lenIndex (b : Nat) : Nat := if b < 128 then b + 0x180 else b + 0x180 - 256

/-- Index `symbol + 0x80` of the code pattern of input byte `b`. -/
def patIndex (b : Nat) : Nat := if b < 128 then b + 0x80 else b + 0x80 - 256

/-- Source: `std::memcpy(bytes, &pattern, sizeof(bytes))` on a little-endian
machine. -/
def patternBytes (pattern : Nat) : List Nat :=
  [pattern % 256, pattern / 256 % 256, pattern / 65536 % 256, pattern / 16777216 % 256]

/-- Source: `maxBits = (static_cast<uint32_t>(out.size()) - 1U) * 8U`. -/
def maxBits (m : Nat) : Nat := (((m % 2 ^ 32 + 2 ^ 32 - 1) % 2 ^ 32) * 8) % 2 ^ 32

/-- Source: `static_cast<uint32_t>(out.size() - 1)`. -/
def outSz (m : Nat) : Nat := ((m + 2 ^ 64 - 1) % 2 ^ 64) % 2 ^ 32

/-- Source: `std::fill_n(out.begin() + first, count, v)`. -/
def fill_n (out : List Nat) (first : Nat) : Nat → Nat → List Nat
  | 0, _ => out
  | k + 1, v => fill_n (out.set first v) (first + 1) k v

/-- The three fills of the stored fallback, for an input of `n` bytes. -/
def storedFill (n : Nat) (out : List Nat) : List Nat :=
  let m := out.length
  let zeroLen := m / 4 + n % 4
  let midLen := n / 4
  let finalLen := n % 4
  let out1 := fill_n out 0 (min zeroLen m) 0
  let out2 := if midLen > 0 ∧ m > 1 then fill_n out1 1 (min midLen (m - 1)) (n % 256) else out1
  let offset := 1 + midLen
  if finalLen > 0 ∧ offset < m then
    fill_n out2 offset (min finalLen (m - offset)) (((n + 1) * 8) % 256)
  else out2

/-- Outcome of one iteration of the `for` loop of `Compress`: either the body
falls through to the next iteration with a new bit offset and buffer, or it
executes one of its `return` statements. -/
inductive Step where
  | Continue (read : Nat) (out : List Nat)
  | Return (r : Result)
  deriving DecidableEq, Repr

/-- The body of the `for` loop of `Compress` for input byte `b`.  `n` is
`input.size()`, `mb` is `maxBits`, `read` and `out` are the current bit offset
and output buffer.  `CompressSub` receives the storage behind `out.data() + 1`. -/
def encodeStep (enc : List Nat) (n mb b read : Nat) (out : List Nat) : Option Step :=
  match enc[lenIndex b]? with
  | none => none
  | some elem =>
      if (elem + read) % 2 ^ 32 < mb then
        match enc[patIndex b]? with
        | none => none
        | some pattern =>
            match CompressSub (patternBytes pattern) read elem (out.drop 1)
                (outSz out.length) with
            | none => none
            | some (r, tl) =>
                if r ≠ 0 then some (Step.Return ⟨Mode.Failure, -1, out.take 1 ++ tl⟩)
                else some (Step.Continue ((read + elem) % 2 ^ 32) (out.take 1 ++ tl))
      else if n + 1 ≥ out.length then
        some (Step.Return ⟨Mode.Stored, toInt32 n, storedFill n out⟩)
      else some (Step.Return ⟨Mode.Failure, -1, out⟩)

/-- The `for` loop of `Compress` over the input still to be encoded, followed by
the two statements after the loop (`out[0] = 1; return read + 8`). -/
def encodeLoop (enc : List Nat) (n mb : Nat) : List Nat → Nat → List Nat → Option Result
  | [], read, out =>
      if 0 < out.length then
        some ⟨Mode.Packed, toInt32 ((read + 8) % 2 ^ 32), out.set 0 1⟩
      else none
  | b :: rest, read, out =>
      match encodeStep enc n mb b read out with
      | none => none
      | some (Step.Return r) => some r
      | some (Step.Continue read1 out1) => encodeLoop enc n mb rest read1 out1

/-- Source: `int32_t ZlibReference::Compress(const std::vector<uint8_t>& input,
std::vector<uint8_t>& out) const`, with `enc` the member `enc_`. -/
def Compress (enc input out : List Nat) : Option Result :=
  if enc.isEmpty then some ⟨Mode.Failure, -1, out⟩
  else encodeLoop enc input.length (maxBits out.length) input 0 out

/-- The loop state (bit offset, buffer) reached when every symbol of `pre` has
been written by `CompressSub` and the loop has fallen through each time; `none`
when some iteration over `pre` returned or went out of range. -/
def runPrefix (enc : List Nat) (n mb : Nat) : List Nat → Nat → List Nat → Option (Nat × List Nat)
  | [], read, out => some (read, out)
  | b :: rest, read, out =>
      match encodeStep enc n mb b read out with
      | some (Step.Continue read1 out1) => runPrefix enc n mb rest read1 out1
      | _ => none

/-- `Lengths[s]`: the code length of input byte `b`, read at index
`symbol + 0x180`. -/
def Lengths (enc : List Nat) (b : Nat) : Nat := enc.getD (lenIndex b) 0

/-- `Patterns[s]`: the code pattern of input byte `b`, read at index
`symbol + 0x80`. -/
def Patterns (enc : List Nat) (b : Nat) : Nat := enc.getD (patIndex b) 0

/-- Sum of the code lengths of a sequence of input bytes. -/
def sumLengths (enc : List Nat) (bs : List Nat) : Nat := (bs.map (Lengths enc)).sum

/-! ## The decode table builder -/

/-- An entry of the jump table: a pointer to slot `target` of the jump table
itself, or a small integer stored in the pointer. -/
inductive JumpEntry where
  | Internal (target : Nat)
  | Leaf (value : Nat)
  deriving DecidableEq, Repr

/-- Source: `void ZlibReference::PopulateJumpTable(const std::vector<uint32_t>& dec)`.
`none` when `dec[0]` does not exist. -/
def PopulateJumpTable (dec : List Nat) : Option (List JumpEntry) :=
  match dec with
  | [] => none
  | d0 :: _ =>
      let base := (d0 + 2 ^ 32 - 4) % 2 ^ 32
      some (dec.map fun c =>
        if c > 0xFF then JumpEntry.Internal (((c + 2 ^ 32 - base) % 2 ^ 32) / 4)
        else JumpEntry.Leaf c)

/-! ## Reading buffers bit by bit -/

/-- The bytes of `l` whose index lies in `[lo, hi)` set to `v`; `i` is the index
of the head of `l`. -/
def setRangeFrom (lo hi v : Nat) : Nat → List Nat → List Nat
  | _, [] => []
  | i, x :: xs => (if lo ≤ i ∧ i < hi then v else x) :: setRangeFrom lo hi v (i + 1) xs

/-- The spec's "bytes `[lo, hi)` set to `v`". -/
def setRange (out : List Nat) (lo hi v : Nat) : List Nat := setRangeFrom lo hi v 0 out

/-- The stored-mode fill in the words of the specification (section 4.4, step
3): three range fills applied in this order, for an input of `n` bytes. -/
def storedFillSpec (n : Nat) (out : List Nat) : List Nat :=
  let m := out.length
  let s1 := setRange out 0 (min (m / 4 + n % 4) m) 0
  let s2 := if n / 4 > 0 ∧ m > 1 then setRange s1 1 (1 + min (n / 4) (m - 1)) (n % 256) else s1
  let offset := 1 + n / 4
  if n % 4 > 0 ∧ offset < m then
    setRange s2 offset (offset + min (n % 4) (m - offset)) (((n + 1) * 8) % 256)
  else s2

/-- Bit `p` of a byte buffer: byte `p / 8`, sub-bit `p % 8`. -/
def bufBit (out : List Nat) (p : Nat) : Bool := (out.getD (p / 8) 0).testBit (p % 8)

/-- Bit `j` of a pattern given as bytes: bit 0 is the least significant bit of
byte 0. -/
def patternBit (pattern : List Nat) (j : Nat) : Bool :=
  (pattern.getD (j / 8) 0).testBit (j % 8)

/-- The table used in the examples: 512 cells, all zero except the pattern and
the length of symbol 65. -/
def tableA (len pat : Nat) : List Nat :=
  (List.replicate 512 0).set (patIndex 65) pat |>.set (lenIndex 65) len

/-- A second example table: symbol 65 has the 8-bit code `0xFF`, symbol 66 a
code length of 64, every other cell is zero. -/
def tableB : List Nat :=
  ((List.replicate 512 0).set (patIndex 65) 255 |>.set (lenIndex 65) 8).set (lenIndex 66) 64

/-! ## Signed symbols and table loading -/

/-- Source: `static_cast<int8_t>(input[i])`, the input byte reinterpreted as a
signed 8-bit value. -/
def symbolOf (b : Nat) : Int :=
  if b % 256 < 128 then ((b % 256 : Nat) : Int) else ((b % 256 : Nat) : Int) - 256

/-- The cells that `file.read(reinterpret_cast<char*>(out.data()), size)` stores
on a little-endian machine: four consecutive file bytes per cell. -/
def cellsOfBytes : List Nat → List Nat
  | b0 :: b1 :: b2 :: b3 :: rest =>
      (b0 + 256 * b1 + 65536 * b2 + 16777216 * b3) :: cellsOfBytes rest
  | _ => []

/-- Source: `bool ZlibReference::LoadTable(const std::string& path,
std::vector<uint32_t>& out) const`.  The file is `none` when it cannot be
opened and `some bytes` otherwise; an opened file is read completely
(`file.good()` holds after the read).  Returns the flag and the vector `out`
afterwards: `out.resize(size / 4)` followed by the read of `size` bytes. -/
def LoadTable (file : Option (List Nat)) (out : List Nat) : Bool × List Nat :=
  match file with
  | none => (false, out)
  | some bytes =>
      if bytes.length ≤ 0 ∨ bytes.length % 4 ≠ 0 then (false, out)
      else (true, cellsOfBytes bytes)

/-- The members of `ZlibReference`: `enc_` and `jump_`. -/
structure Codec where
  enc : List Nat
  jump : List JumpEntry
  deriving DecidableEq, Repr

/-- A codec on which `Init` has not run: both members are empty vectors. -/
def freshCodec : Codec := ⟨[], []⟩

/-- Source: `bool ZlibReference::Init(const std::string& resourceDir)`, with the
two files `compress.dat` and `decompress.dat` of the directory.  `none` when
`PopulateJumpTable` reads `dec[0]` of an empty vector. -/
def Init (c : Codec) (compress decompress : Option (List Nat)) : Option (Bool × Codec) :=
  match LoadTable compress c.enc with
  | (false, enc1) => some (false, ⟨enc1, c.jump⟩)
  | (true, enc1) =>
      match LoadTable decompress [] with
      | (false, _) => some (false, ⟨enc1, c.jump⟩)
      | (true, dec) =>
          match PopulateJumpTable dec with
          | none => none
          | some jump => some (true, ⟨enc1, jump⟩)

/-- A table file holding the given cells: four little-endian bytes per cell. -/
def fileOfCells : List Nat → List Nat
  | [] => []
  | c :: cs => patternBytes c ++ fileOfCells cs

/-- Adding `2 ^ s` to a number whose bit `s` is clear sets that bit and nothing else. -/
theorem testBit_add_two_pow (a s q : Nat) (h : a.testBit s = false) :
    (a + 2 ^ s).testBit q = (decide (q = s) || a.testBit q) := by
  have hl : a % 2 ^ (s + 1) < 2 ^ s := by
    apply Nat.lt_pow_two_of_testBit
    intro i hi
    rw [Nat.testBit_mod_two_pow]
    rcases Nat.eq_or_lt_of_le hi with h1 | h1
    · subst h1; simp [h]
    · have : ¬ i < s + 1 := by omega
      simp [this]
  have ha : a = 2 ^ (s + 1) * (a / 2 ^ (s + 1)) + a % 2 ^ (s + 1) := (Nat.div_add_mod _ _).symm
  have hlt : a % 2 ^ (s + 1) + 2 ^ s < 2 ^ (s + 1) := by
    have : 2 ^ (s + 1) = 2 ^ s + 2 ^ s := by rw [pow_succ]; omega
    omega
  have e1 : a + 2 ^ s = 2 ^ (s + 1) * (a / 2 ^ (s + 1)) + (a % 2 ^ (s + 1) + 2 ^ s) := by omega
  rcases Nat.lt_trichotomy q s with hq | hq | hq
  · rw [Nat.add_comm, Nat.testBit_two_pow_add_gt hq]
    have : ¬ q = s := by omega
    simp [this]
  · subst hq
    rw [Nat.add_comm, Nat.testBit_two_pow_add_eq, h]; simp
  · rw [e1, Nat.testBit_mul_pow_two_add _ hlt]
    have h2 : ¬ q < s + 1 := by omega
    have h3 : ¬ q = s := by omega
    rw [if_neg h2]
    conv_rhs => rw [ha, Nat.testBit_mul_pow_two_add _ (Nat.mod_lt _ (Nat.two_pow_pos _)), if_neg h2]
    simp [h3]

/-- The read-modify-write of `CompressSub` on one byte: sub-bit `s` becomes the
source bit, the other seven sub-bits keep their value. -/
theorem byte_update (d s jb q : Nat) (hs : s < 8) (hjb : jb < 2) (hq : q < 8) :
    (((((2^32 - 1) ^^^ ((1 <<< s) % 2^32)) &&& d) + (jb <<< s) % 256) % 256).testBit q
      = if q = s then decide (jb = 1) else d.testBit q := by
  have h256 : (256:Nat) = 2^8 := by norm_num
  have hs1 : (1 <<< s) % 2 ^ 32 = 2 ^ s := by
    rw [Nat.one_shiftLeft]
    exact Nat.mod_eq_of_lt (Nat.pow_lt_pow_right (by norm_num) (by omega))
  have hall : ∀ q, q < 32 → (2 ^ 32 - 1 : Nat).testBit q = true := by
    intro q hq
    rw [Nat.testBit_two_pow_sub_one]; simp [hq]
  have hclr : ((((2^32 - 1) ^^^ 2 ^ s) &&& d)).testBit s = false := by
    rw [Nat.testBit_and, Nat.testBit_xor, hall s (by omega), Nat.testBit_two_pow_self]; simp
  have hoth : ∀ q, q < 8 → q ≠ s → ((((2^32 - 1) ^^^ 2 ^ s) &&& d)).testBit q = d.testBit q := by
    intro q hq hne
    rw [Nat.testBit_and, Nat.testBit_xor, hall q (by omega),
      Nat.testBit_two_pow_of_ne (Ne.symm hne)]; simp
  rw [hs1, h256, Nat.testBit_mod_two_pow]
  simp only [hq, decide_True, Bool.true_and]
  have hj : jb = 0 ∨ jb = 1 := by omega
  rcases hj with rfl | rfl
  · simp only [Nat.zero_shiftLeft, Nat.zero_mod, Nat.add_zero]
    by_cases hqs : q = s
    · subst hqs; rw [hclr]; simp
    · rw [hoth q hq hqs]; simp [hqs]
  · have : (1 <<< s) % 2 ^ 8 = 2 ^ s := by
      rw [Nat.one_shiftLeft]
      exact Nat.mod_eq_of_lt (Nat.pow_lt_pow_right (by norm_num) (by omega))
    rw [this, testBit_add_two_pow _ _ _ hclr]
    by_cases hqs : q = s
    · subst hqs; simp
    · rw [hoth q hq hqs]; simp [hqs]

/-- The mask `& 7` is the remainder modulo 8. -/
theorem and_seven (x : Nat) : x &&& 7 = x % 8 := by
  have := Nat.and_pow_two_sub_one_eq_mod x 3
  simpa using this

/-- `JumpBit` returns bit `i` of the pattern, as 0 or 1. -/
theorem jumpBit_eq (pattern : List Nat) (i : Nat) (h : i / 8 < pattern.length) :
    ∃ jb, JumpBit pattern i = some jb ∧ jb < 2 ∧ decide (jb = 1) = patternBit pattern i := by
  refine ⟨(pattern[i / 8] >>> (i &&& 7)) &&& 1, ?_, ?_, ?_⟩
  · simp [JumpBit, List.getElem?_eq_getElem h]
  · rw [Nat.and_one_is_mod]; omega
  · rw [patternBit, List.getD_eq_getElem _ _ h, and_seven, Nat.and_one_is_mod,
      Nat.testBit_to_div_mod, Nat.shiftRight_eq_div_pow]

/-- `JumpBit` reads outside the pattern when byte `i / 8` does not exist. -/
theorem jumpBit_none (pattern : List Nat) (i : Nat) (h : pattern.length ≤ i / 8) :
    JumpBit pattern i = none := by
  simp [JumpBit, List.getElem?_eq_none h]

/-- `writeBit` succeeds exactly when both the source byte and the destination byte exist. -/
theorem writeBit_isSome (pattern : List Nat) (read i : Nat) (out : List Nat) :
    (writeBit pattern read i out).isSome
      = (decide (i / 8 < pattern.length) && decide ((read + i) % 2 ^ 32 / 8 < out.length)) := by
  unfold writeBit
  dsimp only
  by_cases hp : i / 8 < pattern.length
  · obtain ⟨jb, hjb, -, -⟩ := jumpBit_eq pattern i hp
    by_cases ho : (read + i) % 2 ^ 32 / 8 < out.length
    · rw [hjb, List.getElem?_eq_getElem ho]; simp [hp]; omega
    · rw [hjb, List.getElem?_eq_none (Nat.le_of_not_lt ho)]; simp [hp]; omega
  · rw [jumpBit_none pattern i (Nat.le_of_not_lt hp)]; simp [hp]

/-- Effect of one iteration of the loop of `CompressSub`. -/
theorem writeBit_spec {pattern : List Nat} {read i : Nat} {out out' : List Nat}
    (h : writeBit pattern read i out = some out') :
    out'.length = out.length ∧
    (∀ idx, idx ≠ (read + i) % 2 ^ 32 / 8 → out'[idx]? = out[idx]?) ∧
    (∀ p, bufBit out' p
      = if p = (read + i) % 2 ^ 32 then patternBit pattern i else bufBit out p) := by
  have hs := writeBit_isSome pattern read i out
  rw [h] at hs
  simp only [Option.isSome_some, Bool.true_eq, Bool.and_eq_true, decide_eq_true_eq] at hs
  obtain ⟨hp, ho⟩ := hs
  obtain ⟨jb, hjb, hlt, hbit⟩ := jumpBit_eq pattern i hp
  unfold writeBit at h
  simp only [hjb, List.getElem?_eq_getElem ho, Option.some.injEq] at h
  subst h
  refine ⟨by simp, ?_, ?_⟩
  · intro idx hne
    rw [List.getElem?_set_ne (Ne.symm hne)]
  · intro p
    unfold bufBit
    simp only [List.getD_eq_getElem?_getD]
    by_cases hidx : p / 8 = (read + i) % 2 ^ 32 / 8
    · rw [hidx, List.getElem?_set_self ho, List.getElem?_eq_getElem ho]
      simp only [Option.getD_some]
      rw [and_seven, byte_update _ _ _ _ (Nat.mod_lt _ (by norm_num)) hlt
        (Nat.mod_lt _ (by norm_num)), hbit]
      by_cases hp8 : p % 8 = (read + i) % 2 ^ 32 % 8
      · have : p = (read + i) % 2 ^ 32 := by omega
        rw [if_pos hp8, if_pos this]
      · have : p ≠ (read + i) % 2 ^ 32 := by
          intro h; rw [h] at hp8; exact hp8 rfl
        rw [if_neg hp8, if_neg this]
    · have : p ≠ (read + i) % 2 ^ 32 := by
        intro h; rw [h] at hidx; exact hidx rfl
      rw [List.getElem?_set_ne (Ne.symm hidx), if_neg this]

/-- One unfolding of the loop of `CompressSub`. -/
theorem writeBits_succ (pattern : List Nat) (read i k : Nat) (out : List Nat) :
    writeBits pattern read i (k + 1) out
      = (writeBit pattern read i out).bind (writeBits pattern read (i + 1) k) := rfl

/-- The loop of `CompressSub` runs to its end when every source byte and every
destination byte it touches exists. -/
theorem writeBits_some (pattern : List Nat) (read : Nat) :
    ∀ (k i : Nat) (out : List Nat),
      (∀ j, i ≤ j → j < i + k →
        j / 8 < pattern.length ∧ (read + j) % 2 ^ 32 / 8 < out.length) →
      ∃ out', writeBits pattern read i k out = some out'
  | 0, _, out, _ => ⟨out, rfl⟩
  | k + 1, i, out, h => by
      have h0 := h i (Nat.le_refl _) (by omega)
      have hs := writeBit_isSome pattern read i out
      rw [decide_eq_true h0.1, decide_eq_true h0.2] at hs
      obtain ⟨o1, ho1⟩ := Option.isSome_iff_exists.mp hs
      have hl := (writeBit_spec ho1).1
      obtain ⟨o2, ho2⟩ := writeBits_some pattern read k (i + 1) o1 (by
        intro j hj1 hj2
        rw [hl]
        exact h j (by omega) (by omega))
      exact ⟨o2, by rw [writeBits_succ, ho1]; exact ho2⟩

/-- Frame and effect of the loop of `CompressSub`, for bit offsets that do not
wrap around `2 ^ 32`. -/
theorem writeBits_spec (pattern : List Nat) (read : Nat) :
    ∀ (k i : Nat) (out out' : List Nat), writeBits pattern read i k out = some out' →
      read + i + k ≤ 2 ^ 32 →
      out'.length = out.length ∧
      (∀ idx, (∀ p, read + i ≤ p → p < read + i + k → p / 8 ≠ idx) → out'[idx]? = out[idx]?) ∧
      (∀ p, bufBit out' p
        = if read + i ≤ p ∧ p < read + i + k then patternBit pattern (p - read)
          else bufBit out p)
  | 0, i, out, out', h, _ => by
      simp only [writeBits, Option.some.injEq] at h
      subst h
      refine ⟨rfl, fun _ _ => rfl, fun p => ?_⟩
      rw [if_neg (by omega)]
  | k + 1, i, out, out', h, hw => by
      rw [writeBits_succ] at h
      cases h1 : writeBit pattern read i out with
      | none => rw [h1] at h; simp at h
      | some o1 =>
        rw [h1] at h
        simp only [Option.some_bind] at h
        obtain ⟨hl1, hf1, hb1⟩ := writeBit_spec h1
        obtain ⟨hl2, hf2, hb2⟩ := writeBits_spec pattern read k (i + 1) o1 out' h (by omega)
        have hmod : (read + i) % 2 ^ 32 = read + i := Nat.mod_eq_of_lt (by omega)
        rw [hmod] at hf1 hb1
        refine ⟨hl2.trans hl1, ?_, ?_⟩
        · intro idx hidx
          rw [hf2 idx (fun p hp1 hp2 => hidx p (by omega) (by omega))]
          exact hf1 idx (Ne.symm (hidx (read + i) (Nat.le_refl _) (by omega)))
        · intro p
          rw [hb2 p, hb1 p]
          by_cases hp : p = read + i
          · subst hp
            have : read + i - read = i := by omega
            rw [if_neg (by omega), if_pos rfl, if_pos (by omega), this]
          · rw [if_neg hp]
            by_cases hr : read + (i + 1) ≤ p ∧ p < read + (i + 1) + k
            · rw [if_pos hr, if_pos (by omega)]
            · rw [if_neg hr, if_neg (by omega)]

/-- Without wrap-around of `size_t`, `CompressedSize` is the plain quotient. -/
theorem CompressedSize_eq (x : Nat) (h : x + 7 < 2 ^ 64) : CompressedSize x = (x + 7) / 8 := by
  unfold CompressedSize
  rw [Nat.mod_eq_of_lt h]

/-- The loop of `CompressSub` leaves the storage when one of its destination
bytes does not exist. -/
theorem writeBits_none (pattern : List Nat) (read : Nat) :
    ∀ (k i : Nat) (out : List Nat) (j : Nat), i ≤ j → j < i + k →
      out.length ≤ (read + j) % 2 ^ 32 / 8 → writeBits pattern read i k out = none
  | 0, i, out, j, h1, h2, _ => by omega
  | k + 1, i, out, j, h1, h2, h3 => by
      rw [writeBits_succ]
      cases hw : writeBit pattern read i out with
      | none => rfl
      | some o1 =>
        simp only [Option.some_bind]
        have hs := writeBit_isSome pattern read i out
        rw [hw] at hs
        simp only [Option.isSome_some, Bool.true_eq, Bool.and_eq_true, decide_eq_true_eq] at hs
        have hl := (writeBit_spec hw).1
        rcases Nat.eq_or_lt_of_le h1 with hj | hj
        · subst hj; omega
        · exact writeBits_none pattern read k (i + 1) o1 j hj (by omega) (by rw [hl]; exact h3)

/-- A call of `CompressSub` that does not return 0 returns -1 and has written
nothing. -/
theorem CompressSub_fail {pattern : List Nat} {read elem : Nat} {out : List Nat} {out_sz : Nat}
    {r : Int} {out' : List Nat} (h : CompressSub pattern read elem out out_sz = some (r, out'))
    (hr : r ≠ 0) : r = -1 ∧ out' = out := by
  unfold CompressSub at h
  split at h
  · simp only [Option.some.injEq, Prod.mk.injEq] at h
    exact ⟨h.1.symm, h.2.symm⟩
  · split at h
    · simp only [Option.some.injEq, Prod.mk.injEq] at h
      exact ⟨h.1.symm, h.2.symm⟩
    · cases hw : writeBits pattern read 0 elem out with
      | none => rw [hw] at h; simp at h
      | some o =>
        rw [hw] at h
        simp only [Option.map_some', Option.some.injEq, Prod.mk.injEq] at h
        exact absurd h.1.symm hr

/-- A call of `CompressSub` that returns 0 passed both checks and ran its loop. -/
theorem CompressSub_ok {pattern : List Nat} {read elem : Nat} {out : List Nat} {out_sz : Nat}
    {out' : List Nat} (h : CompressSub pattern read elem out out_sz = some (0, out')) :
    ¬ CompressedSize elem > 4 ∧ ¬ CompressedSize ((read + elem) % 2 ^ 32) > out_sz ∧
      writeBits pattern read 0 elem out = some out' := by
  unfold CompressSub at h
  split at h
  · simp at h
  · split at h
    · simp at h
    · rename_i h1 h2
      cases hw : writeBits pattern read 0 elem out with
      | none => rw [hw] at h; simp at h
      | some o =>
        rw [hw] at h
        simp only [Option.map_some', Option.some.injEq, Prod.mk.injEq, true_and] at h
        exact ⟨h1, h2, by rw [h]⟩

/-- The failure condition of `CompressSub` for 32-bit arguments whose sum does
not wrap (`read + elem < 2 ^ 32`): the call returns -1, with the destination
untouched, exactly when `elem > 32` or `ceil((read + elem) / 8) > out_sz`.
The wrapped case is treated with claim C3 below. -/
theorem CompressSub_fail_iff (pattern : List Nat) (read elem : Nat) (out : List Nat)
    (out_sz : Nat) (he : elem < 2 ^ 32) (hw : read + elem < 2 ^ 32) :
    CompressSub pattern read elem out out_sz = some (-1, out)
      ↔ (32 < elem ∨ out_sz < (read + elem + 7) / 8) := by
  have hmod : (read + elem) % 2 ^ 32 = read + elem := Nat.mod_eq_of_lt hw
  have hc1 : CompressedSize elem = (elem + 7) / 8 := CompressedSize_eq elem (by omega)
  have hc2 : CompressedSize (read + elem) = (read + elem + 7) / 8 :=
    CompressedSize_eq _ (by omega)
  unfold CompressSub
  rw [hmod, hc1, hc2]
  by_cases h1 : (elem + 7) / 8 > 4
  · rw [if_pos h1]
    exact ⟨fun _ => Or.inl (by omega), fun _ => rfl⟩
  · rw [if_neg h1]
    by_cases h2 : (read + elem + 7) / 8 > out_sz
    · rw [if_pos h2]
      exact ⟨fun _ => Or.inr h2, fun _ => rfl⟩
    · rw [if_neg h2]
      constructor
      · intro h
        cases hwb : writeBits pattern read 0 elem out with
        | none => rw [hwb] at h; simp at h
        | some o => rw [hwb] at h; simp at h
      · intro h
        omega

/-! ## Arithmetic of the encoder -/

/-- For a buffer of at least one byte, `maxBits` is eight times the low 29 bits
of `size - 1`. -/
theorem maxBits_eq (m : Nat) (hm : 1 ≤ m) : maxBits m = 8 * ((m - 1) % 2 ^ 29) := by
  unfold maxBits; omega

/-- For buffers of at most `2 ^ 29` bytes `maxBits` does not wrap. -/
theorem maxBits_small (m : Nat) (hm : 1 ≤ m) (h : m ≤ 2 ^ 29) : maxBits m = (m - 1) * 8 := by
  unfold maxBits; omega

/-- For a buffer of at least one byte, `out_sz` is the low 32 bits of `size - 1`. -/
theorem outSz_eq (m : Nat) (hm : 1 ≤ m) : outSz m = (m - 1) % 2 ^ 32 := by
  unfold outSz; omega

/-- The pattern index of a byte never exceeds its length index. -/
theorem patIndex_le_lenIndex (b : Nat) : patIndex b ≤ lenIndex b := by
  unfold patIndex lenIndex; split <;> omega

/-- The length index of a byte lies below 512. -/
theorem lenIndex_lt (b : Nat) (h : b < 256) : lenIndex b < 512 := by
  unfold lenIndex; split <;> omega

/-- In a table of at least 512 cells the length lookup of a byte succeeds. -/
theorem lookup_Lengths (enc : List Nat) (b : Nat) (henc : 512 ≤ enc.length) (hb : b < 256) :
    enc[lenIndex b]? = some (Lengths enc b) := by
  have h : lenIndex b < enc.length := Nat.lt_of_lt_of_le (lenIndex_lt b hb) henc
  rw [Lengths, List.getD_eq_getElem _ _ h, List.getElem?_eq_getElem h]

/-- In a table of at least 512 cells the pattern lookup of a byte succeeds. -/
theorem lookup_Patterns (enc : List Nat) (b : Nat) (henc : 512 ≤ enc.length) (hb : b < 256) :
    enc[patIndex b]? = some (Patterns enc b) := by
  have h : patIndex b < enc.length :=
    Nat.lt_of_le_of_lt (patIndex_le_lenIndex b) (Nat.lt_of_lt_of_le (lenIndex_lt b hb) henc)
  rw [Patterns, List.getD_eq_getElem _ _ h, List.getElem?_eq_getElem h]

/-- Putting the first byte back in front of the written storage gives a buffer
of the original size. -/
theorem take_one_append_length (out tl : List Nat) (h : tl.length = (out.drop 1).length) :
    (out.take 1 ++ tl).length = out.length := by
  rw [List.length_append, List.length_take, h, List.length_drop]; omega

/-- A pattern is copied into four bytes. -/
theorem patternBytes_length (pat : Nat) : (patternBytes pat).length = 4 := rfl

/-! ## One iteration of the encode loop -/

/-- A code of at most 32 bits that passes the budget check is written: the call
of `CompressSub` returns 0 and the loop goes on with `read + elem`. -/
theorem encodeStep_write (enc : List Nat) (n b read elem pat : Nat) (out : List Nat)
    (hl : enc[lenIndex b]? = some elem) (hp : enc[patIndex b]? = some pat)
    (hout : 1 ≤ out.length) (he : elem ≤ 32) (hb : read + elem < maxBits out.length) :
    ∃ tl, CompressSub (patternBytes pat) read elem (out.drop 1) (outSz out.length) = some (0, tl) ∧
      encodeStep enc n (maxBits out.length) b read out
        = some (Step.Continue (read + elem) (out.take 1 ++ tl)) := by
  have hmb := maxBits_eq out.length hout
  have hsz := outSz_eq out.length hout
  have hlt : read + elem < 2 ^ 32 := by omega
  have hmod : (read + elem) % 2 ^ 32 = read + elem := Nat.mod_eq_of_lt hlt
  have h1 : ¬ CompressedSize elem > 4 := by
    rw [CompressedSize_eq elem (by omega)]; omega
  have h2 : ¬ CompressedSize ((read + elem) % 2 ^ 32) > outSz out.length := by
    rw [hmod, CompressedSize_eq _ (by omega)]; omega
  obtain ⟨tl, htl⟩ := writeBits_some (patternBytes pat) read elem 0 (out.drop 1) (by
    intro j _ hj
    rw [patternBytes_length, List.length_drop]
    have : (read + j) % 2 ^ 32 = read + j := Nat.mod_eq_of_lt (by omega)
    rw [this]
    omega)
  have hcs : CompressSub (patternBytes pat) read elem (out.drop 1) (outSz out.length)
      = some (0, tl) := by
    unfold CompressSub
    rw [if_neg h1, if_neg h2, htl]; rfl
  refine ⟨tl, hcs, ?_⟩
  unfold encodeStep
  rw [hl]
  dsimp only
  rw [Nat.add_comm elem read, hmod, if_pos hb, hp]
  dsimp only
  rw [hcs]
  dsimp only
  rw [if_neg (by simp)]

/-- What an iteration that falls through has done. -/
theorem encodeStep_continue {enc : List Nat} {n mb b read : Nat} {out : List Nat}
    {read1 : Nat} {out1 : List Nat}
    (h : encodeStep enc n mb b read out = some (Step.Continue read1 out1)) :
    ∃ elem pat tl, enc[lenIndex b]? = some elem ∧ enc[patIndex b]? = some pat ∧
      (elem + read) % 2 ^ 32 < mb ∧
      CompressSub (patternBytes pat) read elem (out.drop 1) (outSz out.length) = some (0, tl) ∧
      read1 = (read + elem) % 2 ^ 32 ∧ out1 = out.take 1 ++ tl := by
  unfold encodeStep at h
  cases hl : enc[lenIndex b]? with
  | none => rw [hl] at h; simp at h
  | some elem =>
    rw [hl] at h
    dsimp only at h
    by_cases hc : (elem + read) % 2 ^ 32 < mb
    · rw [if_pos hc] at h
      cases hp : enc[patIndex b]? with
      | none => rw [hp] at h; simp at h
      | some pat =>
        rw [hp] at h
        dsimp only at h
        cases hcs : CompressSub (patternBytes pat) read elem (out.drop 1) (outSz out.length) with
        | none => rw [hcs] at h; simp at h
        | some res =>
          obtain ⟨r, tl⟩ := res
          rw [hcs] at h
          dsimp only at h
          by_cases hr : r = 0
          · subst hr
            rw [if_neg (by simp)] at h
            simp only [Option.some.injEq, Step.Continue.injEq] at h
            exact ⟨elem, pat, tl, rfl, rfl, hc, hcs, h.1.symm, h.2.symm⟩
          · rw [if_pos hr] at h
            simp at h
    · rw [if_neg hc] at h
      split at h <;> simp at h

/-- An iteration whose budget check fails takes the fallback-or-fail branch. -/
theorem encodeStep_budget_fail (enc : List Nat) (n mb b read elem : Nat) (out : List Nat)
    (hl : enc[lenIndex b]? = some elem) (hc : ¬ (elem + read) % 2 ^ 32 < mb) :
    encodeStep enc n mb b read out
      = some (Step.Return (if n + 1 ≥ out.length then ⟨Mode.Stored, toInt32 n, storedFill n out⟩
          else ⟨Mode.Failure, -1, out⟩)) := by
  unfold encodeStep
  rw [hl]
  dsimp only
  rw [if_neg hc]
  split <;> rfl

/-- An iteration that returns the stored result had a failing budget check. -/
theorem encodeStep_stored {enc : List Nat} {n mb b read : Nat} {out : List Nat} {r : Result}
    (h : encodeStep enc n mb b read out = some (Step.Return r)) (hm : r.mode = Mode.Stored) :
    ∃ elem, enc[lenIndex b]? = some elem ∧ ¬ (elem + read) % 2 ^ 32 < mb ∧
      n + 1 ≥ out.length ∧ r = ⟨Mode.Stored, toInt32 n, storedFill n out⟩ := by
  unfold encodeStep at h
  cases hl : enc[lenIndex b]? with
  | none => rw [hl] at h; simp at h
  | some elem =>
    rw [hl] at h
    dsimp only at h
    by_cases hc : (elem + read) % 2 ^ 32 < mb
    · rw [if_pos hc] at h
      cases hp : enc[patIndex b]? with
      | none => rw [hp] at h; simp at h
      | some pat =>
        rw [hp] at h
        dsimp only at h
        cases hcs : CompressSub (patternBytes pat) read elem (out.drop 1) (outSz out.length) with
        | none => rw [hcs] at h; simp at h
        | some res =>
          obtain ⟨r0, tl⟩ := res
          rw [hcs] at h
          dsimp only at h
          by_cases hr : r0 = 0
          · rw [if_neg (by simp [hr])] at h
            simp at h
          · rw [if_pos hr] at h
            simp only [Option.some.injEq, Step.Return.injEq] at h
            subst h
            simp at hm
    · rw [if_neg hc] at h
      by_cases hs : n + 1 ≥ out.length
      · rw [if_pos hs] at h
        simp only [Option.some.injEq, Step.Return.injEq] at h
        exact ⟨elem, rfl, hc, hs, h.symm⟩
      · rw [if_neg hs] at h
        simp only [Option.some.injEq, Step.Return.injEq] at h
        subst h
        simp at hm

/-- An iteration that tries to write a code longer than 32 bits returns -1 and
leaves the buffer as it was. -/
theorem encodeStep_overlong (enc : List Nat) (n mb b read elem : Nat) (out : List Nat)
    (hl : enc[lenIndex b]? = some elem) (h32 : 32 < elem) (hu : elem < 2 ^ 32)
    (hc : (elem + read) % 2 ^ 32 < mb) :
    encodeStep enc n mb b read out = some (Step.Return ⟨Mode.Failure, -1, out⟩) := by
  have hpl : patIndex b < enc.length := by
    have := (List.getElem?_eq_some.mp hl).1
    exact Nat.lt_of_le_of_lt (patIndex_le_lenIndex b) this
  have h1 : CompressedSize elem > 4 := by
    rw [CompressedSize_eq elem (by omega)]; omega
  unfold encodeStep
  rw [hl]
  dsimp only
  rw [if_pos hc, List.getElem?_eq_getElem hpl]
  dsimp only
  unfold CompressSub
  rw [if_pos h1]
  dsimp only
  rw [if_pos (by decide), List.take_append_drop]

/-! ## The encode loop -/

/-- The loop of `CompressSub` keeps the size of the buffer. -/
theorem writeBits_length (pattern : List Nat) (read : Nat) :
    ∀ (k i : Nat) (out out' : List Nat), writeBits pattern read i k out = some out' →
      out'.length = out.length
  | 0, i, out, out', h => by
      simp only [writeBits, Option.some.injEq] at h
      rw [h]
  | k + 1, i, out, out', h => by
      rw [writeBits_succ] at h
      cases h1 : writeBit pattern read i out with
      | none => rw [h1] at h; simp at h
      | some o1 =>
        rw [h1] at h
        simp only [Option.some_bind] at h
        rw [writeBits_length pattern read k (i + 1) o1 out' h, (writeBit_spec h1).1]

/-- One unfolding of the encode loop. -/
theorem encodeLoop_cons (enc : List Nat) (n mb b : Nat) (rest : List Nat) (read : Nat)
    (out : List Nat) :
    encodeLoop enc n mb (b :: rest) read out
      = match encodeStep enc n mb b read out with
        | none => none
        | some (Step.Return r) => some r
        | some (Step.Continue read1 out1) => encodeLoop enc n mb rest read1 out1 := rfl

/-- One unfolding of `runPrefix`. -/
theorem runPrefix_cons (enc : List Nat) (n mb b : Nat) (rest : List Nat) (read : Nat)
    (out : List Nat) :
    runPrefix enc n mb (b :: rest) read out
      = match encodeStep enc n mb b read out with
        | some (Step.Continue read1 out1) => runPrefix enc n mb rest read1 out1
        | _ => none := rfl

/-- After a prefix that was written completely, the loop goes on with the rest
of the input from the state the prefix left. -/
theorem encodeLoop_append (enc : List Nat) (n mb : Nat) :
    ∀ (pre rest : List Nat) (read : Nat) (out : List Nat) (read1 : Nat) (out1 : List Nat),
      runPrefix enc n mb pre read out = some (read1, out1) →
      encodeLoop enc n mb (pre ++ rest) read out = encodeLoop enc n mb rest read1 out1
  | [], rest, read, out, read1, out1, h => by
      simp only [runPrefix, Option.some.injEq, Prod.mk.injEq] at h
      rw [List.nil_append, h.1, h.2]
  | b :: pre, rest, read, out, read1, out1, h => by
      rw [List.cons_append, encodeLoop_cons]
      rw [runPrefix_cons] at h
      cases hs : encodeStep enc n mb b read out with
      | none => rw [hs] at h; simp at h
      | some st =>
        cases st with
        | Return r => rw [hs] at h; simp at h
        | Continue r2 o2 =>
          rw [hs] at h
          dsimp only at h ⊢
          exact encodeLoop_append enc n mb pre rest r2 o2 read1 out1 h

/-- An iteration that falls through keeps the size of the buffer. -/
theorem encodeStep_length {enc : List Nat} {n mb b read : Nat} {out : List Nat}
    {read1 : Nat} {out1 : List Nat}
    (h : encodeStep enc n mb b read out = some (Step.Continue read1 out1)) :
    out1.length = out.length := by
  obtain ⟨elem, pat, tl, -, -, -, hcs, -, ho⟩ := encodeStep_continue h
  obtain ⟨-, -, hw⟩ := CompressSub_ok hcs
  rw [ho]
  exact take_one_append_length out tl (writeBits_length _ _ _ _ _ _ hw)

/-- The prefix run keeps the size of the buffer. -/
theorem runPrefix_length (enc : List Nat) (n mb : Nat) :
    ∀ (pre : List Nat) (read : Nat) (out : List Nat) (read1 : Nat) (out1 : List Nat),
      runPrefix enc n mb pre read out = some (read1, out1) → out1.length = out.length
  | [], read, out, read1, out1, h => by
      simp only [runPrefix, Option.some.injEq, Prod.mk.injEq] at h
      rw [h.2]
  | b :: pre, read, out, read1, out1, h => by
      rw [runPrefix_cons] at h
      cases hs : encodeStep enc n mb b read out with
      | none => rw [hs] at h; simp at h
      | some st =>
        cases st with
        | Return r => rw [hs] at h; simp at h
        | Continue r2 o2 =>
          rw [hs] at h
          dsimp only at h
          rw [runPrefix_length enc n mb pre r2 o2 read1 out1 h, encodeStep_length hs]

/-- A stored result comes from the first iteration that does not fall through. -/
theorem encodeLoop_stored (enc : List Nat) (n mb : Nat) :
    ∀ (input : List Nat) (read : Nat) (out : List Nat) (r : Result),
      encodeLoop enc n mb input read out = some r → r.mode = Mode.Stored →
      ∃ pre s post read1 out1, input = pre ++ s :: post ∧
        runPrefix enc n mb pre read out = some (read1, out1) ∧
        encodeStep enc n mb s read1 out1 = some (Step.Return r)
  | [], read, out, r, h, hm => by
      unfold encodeLoop at h
      split at h
      · simp only [Option.some.injEq] at h
        subst h
        simp at hm
      · simp at h
  | b :: rest, read, out, r, h, hm => by
      rw [encodeLoop_cons] at h
      cases hs : encodeStep enc n mb b read out with
      | none => rw [hs] at h; simp at h
      | some st =>
        cases st with
        | Return r0 =>
          rw [hs] at h
          simp only [Option.some.injEq] at h
          subst h
          exact ⟨[], b, rest, read, out, rfl, rfl, hs⟩
        | Continue r2 o2 =>
          rw [hs] at h
          dsimp only at h
          obtain ⟨pre, s, post, read1, out1, hin, hrun, hst⟩ :=
            encodeLoop_stored enc n mb rest r2 o2 r h hm
          refine ⟨b :: pre, s, post, read1, out1, by rw [hin]; rfl, ?_, hst⟩
          rw [runPrefix_cons, hs]
          exact hrun

/-! ## The stored-mode trigger and over-long codes: claims C4 and C8 -/

/-- What `Compress` returns when, after a prefix that was written completely,
the budget check of the next symbol fails. -/
theorem Compress_budget_fail (enc input out : List Nat) (henc : 512 ≤ enc.length)
    (hin : ∀ b ∈ input, b < 256) (pre : List Nat) (s : Nat) (post : List Nat) (read : Nat)
    (out1 : List Nat) (hsplit : input = pre ++ s :: post)
    (hrun : runPrefix enc input.length (maxBits out.length) pre 0 out = some (read, out1))
    (hc : ¬ (Lengths enc s + read) % 2 ^ 32 < maxBits out.length) :
    Compress enc input out
      = some (if input.length + 1 ≥ out.length
          then ⟨Mode.Stored, toInt32 input.length, storedFill input.length out1⟩
          else ⟨Mode.Failure, -1, out1⟩) := by
  have hne : enc.isEmpty = false := by
    cases enc with
    | nil => simp at henc
    | cons _ _ => rfl
  have hs : s < 256 := hin s (by rw [hsplit]; simp)
  unfold Compress
  rw [hne]
  simp only [Bool.false_eq_true, if_false]
  conv_lhs => rw [hsplit]
  rw [encodeLoop_append enc _ _ pre (s :: post) 0 out read out1 (by rw [← hsplit]; exact hrun),
    encodeLoop_cons,
    encodeStep_budget_fail enc _ _ s read _ out1 (lookup_Lengths enc s henc hs) hc,
    runPrefix_length enc _ _ pre 0 out read out1 hrun]
  rw [← hsplit]

/-- C4: for every encoding table of at least 512 cells, every input and every
output buffer, `Compress` returns the stored result exactly when the input has
a first symbol `s` whose packed-budget check `elem + read < maxBits` (evaluated
as the code does, in `uint32_t`) fails, all symbols before it having been
written by `CompressSub`, and `input.size() + 1 >= out.size()` holds; and when
that check fails with `input.size() + 1 < out.size()`, `Compress` returns -1
and leaves the buffer as the written prefix left it. -/
theorem Compress_stored_trigger (enc input out : List Nat) (henc : 512 ≤ enc.length)
    (hin : ∀ b ∈ input, b < 256) :
    ((∃ r, Compress enc input out = some r ∧ r.mode = Mode.Stored) ↔
      ∃ pre s post read out1, input = pre ++ s :: post ∧
        runPrefix enc input.length (maxBits out.length) pre 0 out = some (read, out1) ∧
        ¬ (Lengths enc s + read) % 2 ^ 32 < maxBits out.length ∧
        input.length + 1 ≥ out.length) ∧
    (∀ pre s post read out1, input = pre ++ s :: post →
        runPrefix enc input.length (maxBits out.length) pre 0 out = some (read, out1) →
        ¬ (Lengths enc s + read) % 2 ^ 32 < maxBits out.length →
        input.length + 1 < out.length →
        Compress enc input out = some ⟨Mode.Failure, -1, out1⟩) := by
  have hne : enc.isEmpty = false := by
    cases enc with
    | nil => simp at henc
    | cons _ _ => rfl
  refine ⟨⟨?_, ?_⟩, ?_⟩
  · rintro ⟨r, hr, hm⟩
    unfold Compress at hr
    rw [hne] at hr
    simp only [Bool.false_eq_true, if_false] at hr
    obtain ⟨pre, s, post, read1, out1, hsplit, hrun, hst⟩ :=
      encodeLoop_stored enc _ _ input 0 out r hr hm
    obtain ⟨elem, hl, hc, hge, -⟩ := encodeStep_stored hst hm
    have hs : s < 256 := hin s (by rw [hsplit]; simp)
    rw [lookup_Lengths enc s henc hs] at hl
    simp only [Option.some.injEq] at hl
    refine ⟨pre, s, post, read1, out1, hsplit, hrun, by rw [hl]; exact hc, ?_⟩
    rw [← runPrefix_length enc _ _ pre 0 out read1 out1 hrun]
    exact hge
  · rintro ⟨pre, s, post, read, out1, hsplit, hrun, hc, hge⟩
    refine ⟨_, Compress_budget_fail enc input out henc hin pre s post read out1 hsplit hrun hc, ?_⟩
    rw [if_pos hge]
  · intro pre s post read out1 hsplit hrun hc hlt
    rw [Compress_budget_fail enc input out henc hin pre s post read out1 hsplit hrun hc,
      if_neg (by omega)]

/-- The example table has 512 cells. -/
theorem tableA_length (len pat : Nat) : (tableA len pat).length = 512 := by
  unfold tableA
  rw [List.length_set, List.length_set, List.length_replicate]

/-- Code length of symbol 65 in the example table. -/
theorem tableA_Lengths (len pat : Nat) : Lengths (tableA len pat) 65 = len := by
  have h1 : lenIndex 65 = 449 := by decide
  unfold Lengths tableA
  rw [List.getD_eq_getElem?_getD, List.getElem?_set_self (by
    rw [List.length_set, List.length_replicate, h1]; omega)]
  rfl

/-- Witness for C4: five input bytes, a 3-byte buffer and a 100-bit code for the
first symbol: the budget check fails at once and `5 + 1 >= 3`. -/
theorem Compress_stored_trigger_witness :
    512 ≤ (tableA 100 5).length ∧ (∀ b ∈ [65, 1, 2, 3, 4], b < 256) ∧
      ∃ r, Compress (tableA 100 5) [65, 1, 2, 3, 4] [9, 9, 9] = some r ∧ r.mode = Mode.Stored :=
  ⟨by rw [tableA_length], by decide,
    (Compress_stored_trigger (tableA 100 5) [65, 1, 2, 3, 4] [9, 9, 9] (by rw [tableA_length])
      (by decide)).1.mpr ⟨[], 65, [1, 2, 3, 4], 0, [9, 9, 9], rfl, rfl,
        by rw [tableA_Lengths]; decide, by decide⟩⟩

/-- C8: for every table, input and output buffer, if `Compress` reaches a symbol
`s` (all symbols before it written) whose code length `Lengths[s]`, a 32-bit
cell, exceeds 32, and the packed-budget check for `s` passes, then `Compress`
returns -1 and the output buffer is exactly the buffer the earlier symbols
left: not a single bit of the over-long code is written. -/
theorem Compress_overlong_code (enc input out : List Nat) (pre : List Nat) (s : Nat)
    (post : List Nat) (read : Nat) (out1 : List Nat) (elem : Nat)
    (hsplit : input = pre ++ s :: post)
    (hrun : runPrefix enc input.length (maxBits out.length) pre 0 out = some (read, out1))
    (hl : enc[lenIndex s]? = some elem) (hu : elem < 2 ^ 32) (h32 : 32 < elem)
    (hc : (elem + read) % 2 ^ 32 < maxBits out.length) :
    Compress enc input out = some ⟨Mode.Failure, -1, out1⟩ := by
  have hne : enc.isEmpty = false := by
    cases enc with
    | nil => simp at hl
    | cons _ _ => rfl
  unfold Compress
  rw [hne]
  simp only [Bool.false_eq_true, if_false]
  conv_lhs => rw [hsplit]
  rw [encodeLoop_append enc _ _ pre (s :: post) 0 out read out1 (by rw [← hsplit]; exact hrun),
    encodeLoop_cons, encodeStep_overlong enc _ _ s read elem out1 hl h32 hu hc]

/-! ## The stored fill: claims C5 and C6 -/

/-- Reading a list after a range fill that starts counting at `i0`. -/
theorem getElem?_setRangeFrom (lo hi v : Nat) :
    ∀ (l : List Nat) (i0 i : Nat),
      (setRangeFrom lo hi v i0 l)[i]?
        = (l[i]?).map fun x => if lo ≤ i0 + i ∧ i0 + i < hi then v else x
  | [], _, _ => by simp [setRangeFrom]
  | x :: xs, i0, 0 => by simp [setRangeFrom]
  | x :: xs, i0, i + 1 => by
      simp only [setRangeFrom, List.getElem?_cons_succ]
      rw [getElem?_setRangeFrom lo hi v xs (i0 + 1) i]
      have : i0 + 1 + i = i0 + (i + 1) := by omega
      rw [this]

/-- Reading a buffer after a range fill. -/
theorem getElem?_setRange (out : List Nat) (lo hi v i : Nat) :
    (setRange out lo hi v)[i]? = (out[i]?).map fun x => if lo ≤ i ∧ i < hi then v else x := by
  unfold setRange
  rw [getElem?_setRangeFrom]
  simp only [Nat.zero_add]

/-- A range fill keeps the size of the buffer. -/
theorem length_setRange (out : List Nat) (lo hi v : Nat) :
    (setRange out lo hi v).length = out.length := by
  unfold setRange
  generalize 0 = i0
  induction out generalizing i0 with
  | nil => rfl
  | cons x xs ih => simp [setRangeFrom, ih]

/-- `std::fill_n` is a range fill. -/
theorem fill_n_eq_setRange : ∀ (k : Nat) (out : List Nat) (first v : Nat),
    fill_n out first k v = setRange out first (first + k) v
  | 0, out, first, v => by
      apply List.ext_getElem?
      intro i
      rw [getElem?_setRange]
      simp only [fill_n]
      cases out[i]? with
      | none => rfl
      | some x => simp only [Option.map_some']; rw [if_neg (by omega)]
  | k + 1, out, first, v => by
      apply List.ext_getElem?
      intro i
      simp only [fill_n]
      rw [fill_n_eq_setRange k (out.set first v) (first + 1) v, getElem?_setRange,
        getElem?_setRange]
      by_cases hi : i = first
      · subst hi
        by_cases hlt : i < out.length
        · rw [List.getElem?_set_self hlt, List.getElem?_eq_getElem hlt]
          simp only [Option.map_some']
          rw [if_neg (by omega), if_pos (by omega)]
        · rw [List.getElem?_eq_none (by rw [List.length_set]; omega),
            List.getElem?_eq_none (by omega)]
          rfl
      · rw [List.getElem?_set_ne (Ne.symm hi)]
        cases out[i]? with
        | none => rfl
        | some x =>
          simp only [Option.map_some']
          by_cases hr : first + 1 ≤ i ∧ i < first + 1 + k
          · rw [if_pos hr, if_pos (by omega)]
          · rw [if_neg hr, if_neg (by omega)]

/-- The three `std::fill_n` calls of the stored fallback are the three range
fills of the specification. -/
theorem storedFill_eq_spec (n : Nat) (out : List Nat) : storedFill n out = storedFillSpec n out := by
  unfold storedFill storedFillSpec
  simp only [fill_n_eq_setRange, length_setRange, Nat.zero_add]

/-- Every byte of the stored fill, index by index: the last fill that covers
an index decides its value. -/
theorem storedFill_getElem? (n : Nat) (out : List Nat) (i : Nat) :
    (storedFill n out)[i]? = (out[i]?).map fun x =>
      if 1 + n / 4 ≤ i ∧ i < 1 + n / 4 + n % 4 then ((n + 1) * 8) % 256
      else if 1 ≤ i ∧ i < 1 + n / 4 then n % 256
      else if i < out.length / 4 + n % 4 then 0
      else x := by
  rw [storedFill_eq_spec]
  unfold storedFillSpec
  by_cases hi : i < out.length
  · simp only [List.getElem?_eq_getElem hi, Option.map_some']
    split_ifs <;>
      simp only [getElem?_setRange, List.getElem?_eq_getElem hi, Option.map_some',
        Option.some.injEq] <;>
      split_ifs <;> first | rfl | omega
  · have hn : out[i]? = none := List.getElem?_eq_none (by omega)
    rw [hn]
    simp only [Option.map_none']
    apply List.getElem?_eq_none
    split_ifs <;> simp only [length_setRange] <;> omega

/-- A stored result, traced back: some prefix of the input was written
completely, the next iteration took the stored fallback on the buffer the
prefix left. -/
theorem Compress_stored_inv {enc input out : List Nat} {r : Result}
    (h : Compress enc input out = some r) (hm : r.mode = Mode.Stored) :
    ∃ pre s post read out1, input = pre ++ s :: post ∧
      runPrefix enc input.length (maxBits out.length) pre 0 out = some (read, out1) ∧
      out1.length = out.length ∧ input.length + 1 ≥ out.length ∧
      r = ⟨Mode.Stored, toInt32 input.length, storedFill input.length out1⟩ := by
  unfold Compress at h
  split at h
  · simp only [Option.some.injEq] at h
    subst h
    simp at hm
  · obtain ⟨pre, s, post, read1, out1, hsplit, hrun, hst⟩ :=
      encodeLoop_stored enc _ _ input 0 out r h hm
    obtain ⟨elem, -, -, hge, hr⟩ := encodeStep_stored hst hm
    have hlen := runPrefix_length enc _ _ pre 0 out read1 out1 hrun
    exact ⟨pre, s, post, read1, out1, hsplit, hrun, hlen, by rw [← hlen]; exact hge, hr⟩

/-- A value below `2 ^ 31` survives the conversion to `int32_t`. -/
theorem toInt32_of_lt (x : Nat) (h : x < 2 ^ 31) : toInt32 x = (x : Int) := by
  unfold toInt32
  have h1 : x % 2 ^ 32 = x := Nat.mod_eq_of_lt (by omega)
  rw [h1, if_pos h]

/-- Counterexample to C5 as stated: an input of `2 ^ 31` bytes and a 1-byte
buffer take the stored fallback, and the value returned is
`static_cast<int32_t>(2 ^ 31) = -2 ^ 31`, not `n = 2 ^ 31`. -/
theorem Compress_stored_value_counterexample :
    Compress (List.replicate 512 0) (List.replicate 2147483648 0) [7]
      = some ⟨Mode.Stored, -2147483648, [7]⟩ := by
  have hlen : (List.replicate 2147483648 0).length = 2147483648 := List.length_replicate _ _
  have hsplit : List.replicate 2147483648 0 = [] ++ 0 :: List.replicate 2147483647 0 := by
    rw [List.nil_append, ← List.replicate_succ]
  have hL : Lengths (List.replicate 512 0) 0 = 0 := by
    unfold Lengths
    rw [List.getD_eq_getElem?_getD, List.getElem?_replicate]
    split <;> rfl
  have h := Compress_budget_fail (List.replicate 512 0) (List.replicate 2147483648 0) [7]
    (by rw [List.length_replicate])
    (fun b hb => by rw [List.eq_of_mem_replicate hb]; omega)
    [] 0 (List.replicate 2147483647 0) 0 [7] hsplit rfl (by rw [hL]; decide)
  rw [h, hlen, if_pos (by decide)]
  decide

set_option maxRecDepth 100000 in
/-- Counterexample to C6 as stated: eight input bytes and a 9-byte buffer of
sevens.  Four 8-bit codes `0xFF` are packed into bytes 1 to 4, the fifth symbol
(64 bits) fails the budget check and the stored fallback fires; afterwards
bytes 3 and 4 still hold packed bits and bytes 5 to 8 still hold the sevens
from before the call. -/
theorem Compress_stored_frame_counterexample :
    Compress tableB [65, 65, 65, 65, 66, 65, 65, 65] [7, 7, 7, 7, 7, 7, 7, 7, 7]
      = some ⟨Mode.Stored, 8, [0, 8, 8, 255, 255, 7, 7, 7, 7]⟩ := by
  decide

/-! ## The packed result: claims C1 and C7 -/

/-- Bit `8 + p` of a buffer is bit `p` of the buffer behind its first byte. -/
theorem bufBit_cons (x : Nat) (t : List Nat) (p : Nat) : bufBit (x :: t) (8 + p) = bufBit t p := by
  unfold bufBit
  have h1 : (8 + p) / 8 = p / 8 + 1 := by omega
  have h2 : (8 + p) % 8 = p % 8 := by omega
  rw [h1, h2, List.getD_eq_getElem?_getD, List.getD_eq_getElem?_getD, List.getElem?_cons_succ]

/-- The bytes that `memcpy` lays out hold the bits of the 32-bit pattern, least
significant bit first. -/
theorem patternBit_patternBytes (pat j : Nat) (hj : j < 32) :
    patternBit (patternBytes pat) j = pat.testBit j := by
  have h256 : (256 : Nat) = 2 ^ 8 := by norm_num
  have hq : j / 8 = 0 ∨ j / 8 = 1 ∨ j / 8 = 2 ∨ j / 8 = 3 := by omega
  have hlt : j % 8 < 8 := Nat.mod_lt _ (by norm_num)
  unfold patternBit patternBytes
  rcases hq with h | h | h | h <;> rw [h]
  · have hj' : j = j % 8 := by omega
    show (pat % 256).testBit (j % 8) = _
    rw [h256, Nat.testBit_mod_two_pow]
    simp only [hlt, decide_True, Bool.true_and]
    rw [← hj']
  · have hj' : j = 8 + j % 8 := by omega
    show (pat / 256 % 256).testBit (j % 8) = _
    have : pat / 256 = pat >>> 8 := by rw [Nat.shiftRight_eq_div_pow]
    rw [this, h256, Nat.testBit_mod_two_pow, Nat.testBit_shiftRight]
    simp only [hlt, decide_True, Bool.true_and]
    rw [← hj']
  · have hj' : j = 16 + j % 8 := by omega
    show (pat / 65536 % 256).testBit (j % 8) = _
    have : pat / 65536 = pat >>> 16 := by rw [Nat.shiftRight_eq_div_pow]
    rw [this, h256, Nat.testBit_mod_two_pow, Nat.testBit_shiftRight]
    simp only [hlt, decide_True, Bool.true_and]
    rw [← hj']
  · have hj' : j = 24 + j % 8 := by omega
    show (pat / 16777216 % 256).testBit (j % 8) = _
    have : pat / 16777216 = pat >>> 24 := by rw [Nat.shiftRight_eq_div_pow]
    rw [this, h256, Nat.testBit_mod_two_pow, Nat.testBit_shiftRight]
    simp only [hlt, decide_True, Bool.true_and]
    rw [← hj']

/-- No symbols, no bits. -/
theorem sumLengths_nil (enc : List Nat) : sumLengths enc [] = 0 := rfl

/-- The code lengths of a sequence add up symbol by symbol. -/
theorem sumLengths_cons (enc : List Nat) (b : Nat) (bs : List Nat) :
    sumLengths enc (b :: bs) = Lengths enc b + sumLengths enc bs := by
  simp [sumLengths]

/-- The encode loop on an input whose codes all fit: it ends in the packed
result, keeps the bits below the starting offset and holds every code at its
offset. -/
theorem encodeLoop_packed (enc : List Nat) (n : Nat) (henc : 512 ≤ enc.length) :
    ∀ (rest : List Nat) (read x : Nat) (t : List Nat),
      (∀ b ∈ rest, b < 256) → (∀ b ∈ rest, Lengths enc b ≤ 32) →
      (rest ≠ [] → read + sumLengths enc rest < maxBits (t.length + 1)) →
      ∃ t', encodeLoop enc n (maxBits (t.length + 1)) rest read (x :: t)
          = some ⟨Mode.Packed, toInt32 ((read + sumLengths enc rest + 8) % 2 ^ 32), 1 :: t'⟩ ∧
        t'.length = t.length ∧
        (∀ p, p < read → bufBit t' p = bufBit t p) ∧
        (∀ pre s post, rest = pre ++ s :: post → ∀ j, j < Lengths enc s →
          bufBit t' (read + sumLengths enc pre + j) = (Patterns enc s).testBit j)
  | [], read, x, t, _, _, _ => by
      refine ⟨t, ?_, rfl, fun _ _ => rfl, ?_⟩
      · simp [encodeLoop, sumLengths_nil]
      · intro pre s post h
        simp at h
  | b :: rest, read, x, t, hin, h32, hsum => by
      have hb : b < 256 := hin b (List.mem_cons_self _ _)
      have hL : Lengths enc b ≤ 32 := h32 b (List.mem_cons_self _ _)
      have hs := hsum (List.cons_ne_nil _ _)
      rw [sumLengths_cons] at hs
      obtain ⟨tl, hcs, hstep⟩ := encodeStep_write enc n b read (Lengths enc b) (Patterns enc b)
        (x :: t) (lookup_Lengths enc b henc hb) (lookup_Patterns enc b henc hb)
        (by simp) hL (by simp only [List.length_cons]; omega)
      simp only [List.length_cons, List.drop_succ_cons, List.drop_zero, List.take_succ_cons,
        List.take_zero, List.singleton_append] at hcs hstep
      obtain ⟨-, -, hwb⟩ := CompressSub_ok hcs
      obtain ⟨hlen, -, hbits⟩ := writeBits_spec _ read (Lengths enc b) 0 t tl hwb (by
        have := maxBits_eq (t.length + 1) (by omega)
        omega)
      simp only [Nat.add_zero] at hbits
      obtain ⟨t', hloop, hlen', hframe, hcodes⟩ :=
        encodeLoop_packed enc n henc rest (read + Lengths enc b) x tl
          (fun c hc => hin c (List.mem_cons_of_mem _ hc))
          (fun c hc => h32 c (List.mem_cons_of_mem _ hc))
          (by intro _; rw [hlen]; omega)
      rw [hlen] at hloop
      refine ⟨t', ?_, hlen'.trans hlen, ?_, ?_⟩
      · rw [encodeLoop_cons, hstep]
        dsimp only
        rw [hloop, sumLengths_cons, Nat.add_assoc read]
      · intro p hp
        rw [hframe p (by omega), hbits p, if_neg (by omega)]
      · intro pre s post hsplit j hj
        cases pre with
        | nil =>
          simp only [List.nil_append, List.cons.injEq] at hsplit
          obtain ⟨rfl, -⟩ := hsplit
          rw [sumLengths_nil, Nat.add_zero, hframe _ (by omega), hbits, if_pos (by omega)]
          have : read + j - read = j := by omega
          rw [this, patternBit_patternBytes _ _ (by omega)]
        | cons c pre' =>
          simp only [List.cons_append, List.cons.injEq] at hsplit
          obtain ⟨rfl, hrest⟩ := hsplit
          have := hcodes pre' s post hrest j hj
          rw [sumLengths_cons, ← Nat.add_assoc]
          exact this

/-- `Compress` on an input whose codes all fit (statement shared by the packed
results below). -/
theorem Compress_packed_aux (enc input out : List Nat) (henc : 512 ≤ enc.length)
    (hin : ∀ b ∈ input, b < 256) (hout : 1 ≤ out.length)
    (h32 : ∀ b ∈ input, Lengths enc b ≤ 32)
    (hsum : input ≠ [] → sumLengths enc input < maxBits out.length) :
    ∃ r, Compress enc input out = some r ∧ r.mode = Mode.Packed ∧
      r.value = toInt32 ((sumLengths enc input + 8) % 2 ^ 32) ∧
      r.out.length = out.length ∧ r.out[0]? = some 1 ∧
      ∀ pre s post, input = pre ++ s :: post → ∀ j, j < Lengths enc s →
        bufBit r.out (8 + sumLengths enc pre + j) = (Patterns enc s).testBit j := by
  have hne : enc.isEmpty = false := by
    cases enc with
    | nil => simp at henc
    | cons _ _ => rfl
  cases out with
  | nil => simp at hout
  | cons x t =>
    obtain ⟨t', hloop, hlen, -, hcodes⟩ :=
      encodeLoop_packed enc input.length henc input 0 x t hin h32 (by
        intro h
        have := hsum h
        simp only [List.length_cons] at this
        omega)
    refine ⟨⟨Mode.Packed, toInt32 ((0 + sumLengths enc input + 8) % 2 ^ 32), 1 :: t'⟩,
      ?_, rfl, ?_, ?_, by simp, ?_⟩
    · unfold Compress
      rw [hne]
      simp only [Bool.false_eq_true, if_false, List.length_cons]
      exact hloop
    · simp only [Nat.zero_add]
    · simp only [List.length_cons, hlen]
    · intro pre s post hsplit j hj
      have := hcodes pre s post hsplit j hj
      rw [Nat.zero_add] at this
      show bufBit (1 :: t') (8 + sumLengths enc pre + j) = _
      rw [Nat.add_assoc, bufBit_cons]
      exact this

/-- C1 (amended): for every encoding table of at least 512 cells, every input
byte sequence and every output buffer of size at least 1, if every symbol's
code length is at most 32, the running sum of the code lengths after each
symbol stays strictly below `maxBits`, taken as the 32-bit value
`((size - 1) * 8) mod 2 ^ 32` the code computes (it is `(size - 1) * 8` for
sizes up to `2 ^ 29`), and `8 + total` is below `2 ^ 31` (the result is an
`int32_t`), then `Compress` returns the packed result `8 + total`, output byte
0 is 1, and for the `k`-th symbol, whose bit offset is the sum of the code
lengths of the symbols before it, output bit `8 + offset + j` equals bit `j` of
its pattern for every `j` below its code length. -/
theorem Compress_packed_result (enc input out : List Nat) (henc : 512 ≤ enc.length)
    (hin : ∀ b ∈ input, b < 256) (hout : 1 ≤ out.length)
    (h32 : ∀ b ∈ input, Lengths enc b ≤ 32)
    (hsum : ∀ k, k < input.length → sumLengths enc (input.take (k + 1)) < maxBits out.length)
    (hret : 8 + sumLengths enc input < 2 ^ 31) :
    ∃ r, Compress enc input out = some r ∧ r.mode = Mode.Packed ∧
      r.value = ((8 + sumLengths enc input : Nat) : Int) ∧
      r.out.length = out.length ∧ r.out[0]? = some 1 ∧
      ∀ (k : Nat) (hk : k < input.length) (j : Nat), j < Lengths enc input[k] →
        bufBit r.out (8 + sumLengths enc (input.take k) + j)
          = (Patterns enc input[k]).testBit j := by
  obtain ⟨r, hr, hm, hv, hl, h0, hcodes⟩ := Compress_packed_aux enc input out henc hin hout h32 (by
    intro hne
    have hpos : 0 < input.length := List.length_pos.mpr hne
    have := hsum (input.length - 1) (by omega)
    have e : input.length - 1 + 1 = input.length := by omega
    rw [e, List.take_length] at this
    exact this)
  refine ⟨r, hr, hm, ?_, hl, h0, ?_⟩
  · rw [hv, Nat.mod_eq_of_lt (by omega), toInt32_of_lt _ (by omega), Nat.add_comm]
  · intro k hk j hj
    refine hcodes (input.take k) input[k] (input.drop (k + 1)) ?_ j hj
    rw [← List.drop_eq_getElem_cons hk, List.take_append_drop]

/-- The second example table has 512 cells. -/
theorem tableB_length : tableB.length = 512 := by
  unfold tableB
  rw [List.length_set, List.length_set, List.length_set, List.length_replicate]

set_option maxRecDepth 100000 in
/-- Witness for C1: two symbols with the 8-bit code `0xFF` packed into a 4-byte
buffer (budget 24 bits). -/
theorem Compress_packed_result_witness :
    512 ≤ tableB.length ∧ (∀ b ∈ [65, 65], b < 256) ∧ 1 ≤ [0, 0, 0, 0].length ∧
    (∀ b ∈ [65, 65], Lengths tableB b ≤ 32) ∧
    (∀ k, k < [65, 65].length → sumLengths tableB ([65, 65].take (k + 1)) < maxBits [0, 0, 0, 0].length) ∧
    8 + sumLengths tableB [65, 65] < 2 ^ 31 ∧
    ∃ r, Compress tableB [65, 65] [0, 0, 0, 0] = some r ∧ r.mode = Mode.Packed ∧
      r.value = ((8 + sumLengths tableB [65, 65] : Nat) : Int) ∧
      r.out.length = [0, 0, 0, 0].length ∧ r.out[0]? = some 1 ∧
      ∀ (k : Nat) (hk : k < [65, 65].length) (j : Nat), j < Lengths tableB [65, 65][k] →
        bufBit r.out (8 + sumLengths tableB ([65, 65].take k) + j)
          = (Patterns tableB [65, 65][k]).testBit j :=
  ⟨by rw [tableB_length], by decide, by decide, by decide, by decide, by decide,
    Compress_packed_result tableB [65, 65] [0, 0, 0, 0] (by rw [tableB_length]) (by decide)
      (by decide) (by decide) (by decide) (by decide)⟩

/-- Counterexample to C1 as stated: a 4-bit code, one input symbol and an output
buffer of `2 ^ 29 + 1` bytes.  The code length is below `(size - 1) * 8 = 2 ^ 32`,
but the code computes `maxBits` in `uint32_t`, where it is 0, so the budget
check fails and `Compress` returns -1 instead of 12. -/
theorem Compress_packed_result_counterexample :
    Lengths (tableA 4 5) 65 ≤ 32 ∧ Lengths (tableA 4 5) 65 < (536870913 - 1) * 8 ∧
    Compress (tableA 4 5) [65] (List.replicate 536870913 0)
      = some ⟨Mode.Failure, -1, List.replicate 536870913 0⟩ := by
  refine ⟨by rw [tableA_Lengths]; omega, by rw [tableA_Lengths]; omega, ?_⟩
  have h := Compress_budget_fail (tableA 4 5) [65] (List.replicate 536870913 0)
    (by rw [tableA_length]) (by decide) [] 65 [] 0 (List.replicate 536870913 0) rfl rfl
    (by rw [tableA_Lengths, List.length_replicate]; decide)
  rw [h, List.length_replicate, if_neg (by decide)]

/-- C7 (amended): for any encoding table of at least 512 cells, any single-byte
input `b` whose code length `L = Lengths[b]` is at most 32, and any output
buffer of size at least 1 with `L < maxBits`, taken as the 32-bit value
`((size - 1) * 8) mod 2 ^ 32` the code computes, `Compress` returns exactly
`L + 8`, output byte 0 is 1, and output bits `8 .. 8 + L - 1` equal bits
`0 .. L - 1` of `Patterns[b]`. -/
theorem Compress_single_byte (enc : List Nat) (b : Nat) (out : List Nat)
    (henc : 512 ≤ enc.length) (hb : b < 256) (hout : 1 ≤ out.length)
    (h32 : Lengths enc b ≤ 32) (hfit : Lengths enc b < maxBits out.length) :
    ∃ r, Compress enc [b] out = some r ∧ r.mode = Mode.Packed ∧
      r.value = ((Lengths enc b + 8 : Nat) : Int) ∧
      r.out.length = out.length ∧ r.out[0]? = some 1 ∧
      ∀ j, j < Lengths enc b → bufBit r.out (8 + j) = (Patterns enc b).testBit j := by
  have hs : sumLengths enc [b] = Lengths enc b := by
    rw [sumLengths_cons, sumLengths_nil, Nat.add_zero]
  obtain ⟨r, hr, hm, hv, hl, h0, hcodes⟩ := Compress_packed_aux enc [b] out henc
    (by intro c hc; rw [List.mem_singleton] at hc; rw [hc]; exact hb) hout
    (by intro c hc; rw [List.mem_singleton] at hc; rw [hc]; exact h32)
    (by intro _; rw [hs]; exact hfit)
  refine ⟨r, hr, hm, ?_, hl, h0, ?_⟩
  · rw [hv, hs, Nat.mod_eq_of_lt (by omega), toInt32_of_lt _ (by omega)]
  · intro j hj
    have := hcodes [] b [] rfl j hj
    rw [sumLengths_nil, Nat.add_zero] at this
    exact this

set_option maxRecDepth 100000 in
/-- Witness for C7: `Lengths[65] = 4`, `Patterns[65] = 0b0101`, input `[0x41]` and
an output buffer of size 2 give the return value 12, byte 0 = 1 and byte 1 = 5
(low four bits `0101`). -/
theorem Compress_single_byte_witness :
    512 ≤ (tableA 4 5).length ∧ 65 < 256 ∧ 1 ≤ [0, 0].length ∧
    Lengths (tableA 4 5) 65 ≤ 32 ∧ Lengths (tableA 4 5) 65 < maxBits [0, 0].length ∧
    Compress (tableA 4 5) [0x41] [0, 0] = some ⟨Mode.Packed, 12, [1, 5]⟩ ∧
    ∃ r, Compress (tableA 4 5) [65] [0, 0] = some r ∧ r.mode = Mode.Packed ∧
      r.value = ((Lengths (tableA 4 5) 65 + 8 : Nat) : Int) ∧
      r.out.length = [0, 0].length ∧ r.out[0]? = some 1 ∧
      ∀ j, j < Lengths (tableA 4 5) 65 → bufBit r.out (8 + j) = (Patterns (tableA 4 5) 65).testBit j :=
  ⟨by rw [tableA_length], by decide, by decide, by rw [tableA_Lengths]; decide,
    by rw [tableA_Lengths]; decide, by decide,
    Compress_single_byte (tableA 4 5) 65 [0, 0] (by rw [tableA_length]) (by decide) (by decide)
      (by rw [tableA_Lengths]; decide) (by rw [tableA_Lengths]; decide)⟩

set_option maxRecDepth 100000 in
/-- Counterexample to C7 as stated, in two parts.  A table of 512 cells with
`Lengths[65] = 33` and a 6-byte buffer (`33 < 40`): `Compress` returns -1, not
41.  And a 10-bit code with a buffer of `2 ^ 29 + 2` bytes: `10` is below
`(size - 1) * 8`, but the 32-bit `maxBits` is 8 and `Compress` returns -1. -/
theorem Compress_single_byte_counterexample :
    (512 ≤ (tableA 33 5).length ∧ Lengths (tableA 33 5) 65 < (6 - 1) * 8 ∧
      Compress (tableA 33 5) [65] [0, 0, 0, 0, 0, 0]
        = some ⟨Mode.Failure, -1, [0, 0, 0, 0, 0, 0]⟩) ∧
    (Lengths (tableA 10 5) 65 ≤ 32 ∧ Lengths (tableA 10 5) 65 < (536870914 - 1) * 8 ∧
      Compress (tableA 10 5) [65] (List.replicate 536870914 0)
        = some ⟨Mode.Failure, -1, List.replicate 536870914 0⟩) := by
  refine ⟨⟨by rw [tableA_length], by rw [tableA_Lengths]; omega, by decide⟩,
    by rw [tableA_Lengths]; omega, by rw [tableA_Lengths]; omega, ?_⟩
  have h := Compress_budget_fail (tableA 10 5) [65] (List.replicate 536870914 0)
    (by rw [tableA_length]) (by decide) [] 65 [] 0 (List.replicate 536870914 0) rfl rfl
    (by rw [tableA_Lengths, List.length_replicate]; decide)
  rw [h, List.length_replicate, if_neg (by decide)]

/-! ## The encode loop on two buffers -/

/-- An iteration falls through when its lookups succeed, its budget check
passes and `CompressSub` returns 0. -/
theorem encodeStep_of_ok (enc : List Nat) (n mb b read elem pat : Nat) (out tl : List Nat)
    (hl : enc[lenIndex b]? = some elem) (hp : enc[patIndex b]? = some pat)
    (hc : (elem + read) % 2 ^ 32 < mb)
    (hcs : CompressSub (patternBytes pat) read elem (out.drop 1) (outSz out.length) = some (0, tl)) :
    encodeStep enc n mb b read out
      = some (Step.Continue ((read + elem) % 2 ^ 32) (out.take 1 ++ tl)) := by
  unfold encodeStep
  rw [hl]
  dsimp only
  rw [if_pos hc, hp]
  dsimp only
  rw [hcs]
  dsimp only
  rw [if_neg (by simp)]

/-- A `return` inside the loop body is never the packed result. -/
theorem encodeStep_return_mode {enc : List Nat} {n mb b read : Nat} {out : List Nat} {r : Result}
    (h : encodeStep enc n mb b read out = some (Step.Return r)) : r.mode ≠ Mode.Packed := by
  unfold encodeStep at h
  cases hl : enc[lenIndex b]? with
  | none => rw [hl] at h; simp at h
  | some elem =>
    rw [hl] at h
    dsimp only at h
    by_cases hc : (elem + read) % 2 ^ 32 < mb
    · rw [if_pos hc] at h
      cases hp : enc[patIndex b]? with
      | none => rw [hp] at h; simp at h
      | some pat =>
        rw [hp] at h
        dsimp only at h
        cases hcs : CompressSub (patternBytes pat) read elem (out.drop 1) (outSz out.length) with
        | none => rw [hcs] at h; simp at h
        | some res =>
          obtain ⟨r0, tl⟩ := res
          rw [hcs] at h
          dsimp only at h
          by_cases hr : r0 = 0
          · rw [if_neg (by simp [hr])] at h
            simp at h
          · rw [if_pos hr] at h
            simp only [Option.some.injEq, Step.Return.injEq] at h
            subst h
            simp
    · rw [if_neg hc] at h
      by_cases hs : n + 1 ≥ out.length
      · rw [if_pos hs] at h
        simp only [Option.some.injEq, Step.Return.injEq] at h
        subst h
        simp
      · rw [if_neg hs] at h
        simp only [Option.some.injEq, Step.Return.injEq] at h
        subst h
        simp

/-- Every bit of a buffer of zero bytes is clear. -/
theorem bufBit_replicate_zero (n p : Nat) : bufBit (List.replicate n 0) p = false := by
  unfold bufBit
  rw [List.getD_eq_getElem?_getD, List.getElem?_replicate]
  split <;> simp

/-! ## The bit writer: claims C2 and C3 -/

/-- C2 (amended): whenever `CompressSub(pattern, read, elem, out, out_sz)` returns 0
and `read + elem ≤ 2 ^ 32` (the 32-bit bit offset does not wrap around), the
buffer keeps its size, every bit position `p` with `read ≤ p < read + elem`
holds bit `p - read` of the pattern (bit 0 = least significant bit of byte 0),
every other bit position holds the destination's original bit, and every byte
that contains no bit of that range is left unchanged. -/
theorem CompressSub_postcondition (pattern : List Nat) (read elem : Nat) (out : List Nat)
    (out_sz : Nat) (out' : List Nat)
    (h : CompressSub pattern read elem out out_sz = some (0, out'))
    (hw : read + elem ≤ 2 ^ 32) :
    out'.length = out.length ∧
    (∀ p, bufBit out' p
      = if read ≤ p ∧ p < read + elem then patternBit pattern (p - read) else bufBit out p) ∧
    (∀ idx, (∀ p, read ≤ p → p < read + elem → p / 8 ≠ idx) → out'[idx]? = out[idx]?) := by
  obtain ⟨-, -, hwb⟩ := CompressSub_ok h
  obtain ⟨h1, h2, h3⟩ := writeBits_spec pattern read elem 0 out out' hwb (by omega)
  simp only [Nat.add_zero] at h2 h3
  exact ⟨h1, h3, h2⟩

/-- Witness for C2: writing the 4-bit code `0b0101` at bit offset 3 of two zero
bytes gives `[40, 0]`. -/
theorem CompressSub_postcondition_witness :
    CompressSub (patternBytes 5) 3 4 [0, 0] 2 = some (0, [40, 0]) ∧ 3 + 4 ≤ 2 ^ 32 ∧
    ([40, 0].length = [0, 0].length ∧
      (∀ p, bufBit [40, 0] p
        = if 3 ≤ p ∧ p < 3 + 4 then patternBit (patternBytes 5) (p - 3) else bufBit [0, 0] p) ∧
      (∀ idx, (∀ p, 3 ≤ p → p < 3 + 4 → p / 8 ≠ idx) → [40, 0][idx]? = [0, 0][idx]?)) :=
  ⟨by decide, by decide,
    CompressSub_postcondition (patternBytes 5) 3 4 [0, 0] 2 [40, 0] (by decide) (by decide)⟩

/-- Counterexample to C2 as stated: with `read = 2 ^ 32 - 1` and `elem = 2` on a
buffer of `2 ^ 29 + 1` zero bytes (so that bit position `read + 1 = 2 ^ 32`
exists in it) the call returns 0, bit position 0 lies outside
`[read, read + elem)`, and yet bit 0 of the buffer has changed: the second
bit is written at the wrapped position `(read + 1) mod 2 ^ 32 = 0`. -/
theorem CompressSub_postcondition_counterexample :
    ∃ out', CompressSub [2, 0, 0, 0] 4294967295 2 (List.replicate 536870913 0) 536870913
        = some (0, out') ∧
      ¬ (4294967295 ≤ 0 ∧ 0 < 4294967295 + 2) ∧
      bufBit out' 0 ≠ bufBit (List.replicate 536870913 0) 0 := by
  have h1 : ¬ CompressedSize 2 > 4 := by unfold CompressedSize; norm_num
  have h2 : ¬ CompressedSize ((4294967295 + 2) % 2 ^ 32) > 536870913 := by
    unfold CompressedSize; norm_num
  obtain ⟨o, ho⟩ := writeBits_some [2, 0, 0, 0] 4294967295 2 0 (List.replicate 536870913 0) (by
    intro j hj1 hj2
    rw [List.length_replicate]
    have : j = 0 ∨ j = 1 := by omega
    rcases this with rfl | rfl <;> simp)
  refine ⟨o, ?_, by omega, ?_⟩
  · unfold CompressSub
    rw [if_neg h1, if_neg h2, ho]; rfl
  · rw [writeBits_succ] at ho
    cases hw : writeBit [2, 0, 0, 0] 4294967295 0 (List.replicate 536870913 0) with
    | none => rw [hw] at ho; simp at ho
    | some o1 =>
      rw [hw] at ho
      simp only [Option.some_bind, writeBits_succ] at ho
      cases hw2 : writeBit [2, 0, 0, 0] 4294967295 (0 + 1) o1 with
      | none => rw [hw2] at ho; simp at ho
      | some o2 =>
        rw [hw2] at ho
        simp only [Option.some_bind, writeBits, Option.some.injEq] at ho
        subst ho
        rw [(writeBit_spec hw2).2.2 0, bufBit_replicate_zero, if_pos (by norm_num)]
        decide

/-- C3 (code defect): the capacity check of `CompressSub` adds `read + elem` in
`uint32_t`.  For `read = 2 ^ 32 - 32`, `elem = 32` and a destination of
`out_sz = 2 ^ 29 - 1` bytes, `ceil((read + elem) / 8) = 2 ^ 29 > out_sz`, so the
call has to return -1 without writing; instead the sum wraps to 0, the check
passes, and the loop writes until it reaches byte index `2 ^ 29 - 1 = out_sz`,
outside the destination (`none`). -/
theorem CompressSub_capacity_wrap :
    CompressSub (patternBytes 0) 4294967264 32 (List.replicate 536870911 0) 536870911 = none := by
  have h1 : ¬ CompressedSize 32 > 4 := by unfold CompressedSize; norm_num
  have h2 : ¬ CompressedSize ((4294967264 + 32) % 2 ^ 32) > 536870911 := by
    unfold CompressedSize; norm_num
  unfold CompressSub
  rw [if_neg h1, if_neg h2,
    writeBits_none _ _ 32 0 _ 24 (by omega) (by omega)
      (by rw [List.length_replicate]; norm_num)]
  rfl

set_option maxRecDepth 100000 in
/-- Witness for C8: a 33-bit code for symbol 65 passes the budget check of a
6-byte buffer (`33 < 40`) and makes `Compress` return -1 with the buffer
untouched. -/
theorem Compress_overlong_code_witness :
    [65] = [] ++ 65 :: [] ∧
    runPrefix (tableA 33 5) [65].length (maxBits [7, 7, 7, 7, 7, 7].length) [] 0
      [7, 7, 7, 7, 7, 7] = some (0, [7, 7, 7, 7, 7, 7]) ∧
    (tableA 33 5)[lenIndex 65]? = some 33 ∧ 33 < 2 ^ 32 ∧ 32 < 33 ∧
    (33 + 0) % 2 ^ 32 < maxBits [7, 7, 7, 7, 7, 7].length ∧
    Compress (tableA 33 5) [65] [7, 7, 7, 7, 7, 7]
      = some ⟨Mode.Failure, -1, [7, 7, 7, 7, 7, 7]⟩ :=
  ⟨rfl, rfl, by decide, by decide, by decide, by decide,
    Compress_overlong_code (tableA 33 5) [65] [7, 7, 7, 7, 7, 7] [] 65 [] 0 [7, 7, 7, 7, 7, 7] 33
      rfl rfl (by decide) (by decide) (by decide) (by decide)⟩

/-! ## The decode table builder: claim C9 -/

/-- C9: for every non-empty sequence of 32-bit cells `PopulateJumpTable` yields
a jump table of the same length, and with `base = cells[0] - 4` (a `uint32_t`
difference) entry `i` is an internal reference to index `(cells[i] - base) / 4`
(again a `uint32_t` difference) when `cells[i] > 255`, and the leaf `cells[i]`
otherwise.  When neither difference wraps (`4 ≤ cells[0]` and
`cells[0] - 4 ≤ cells[i]`), the index is `(cells[i] - (cells[0] - 4)) / 4` in
plain arithmetic. -/
theorem PopulateJumpTable_entries (cells : List Nat) (h0 : 0 < cells.length) :
    ∃ jump, PopulateJumpTable cells = some jump ∧ jump.length = cells.length ∧
      ∀ (i : Nat) (hi : i < cells.length),
        (cells[i] > 255 → jump[i]? = some (JumpEntry.Internal
          ((cells[i] + 2 ^ 32 - (cells[0] + 2 ^ 32 - 4) % 2 ^ 32) % 2 ^ 32 / 4))) ∧
        (cells[i] ≤ 255 → jump[i]? = some (JumpEntry.Leaf cells[i])) ∧
        (4 ≤ cells[0] → cells[0] - 4 ≤ cells[i] → cells[0] < 2 ^ 32 → cells[i] < 2 ^ 32 →
          (cells[i] + 2 ^ 32 - (cells[0] + 2 ^ 32 - 4) % 2 ^ 32) % 2 ^ 32 / 4
            = (cells[i] - (cells[0] - 4)) / 4) := by
  cases cells with
  | nil => simp at h0
  | cons d0 rest =>
    refine ⟨_, rfl, by simp, ?_⟩
    intro i hi
    refine ⟨?_, ?_, ?_⟩
    · intro hgt
      rw [List.getElem?_map, List.getElem?_eq_getElem hi]
      simp only [Option.map_some', List.getElem_cons_zero]
      rw [if_pos hgt]
    · intro hle
      rw [List.getElem?_map, List.getElem?_eq_getElem hi]
      simp only [Option.map_some', List.getElem_cons_zero]
      rw [if_neg (by omega)]
    · intro h4 hle hd hc
      simp only [List.getElem_cons_zero] at h4 hle hd ⊢
      omega

/-- Witness for C9: `cells = [4, 300, 7]` has base 0; entry 1 is an internal
reference to index 75 and entry 2 is the leaf 7. -/
theorem PopulateJumpTable_entries_witness :
    0 < [4, 300, 7].length ∧
    PopulateJumpTable [4, 300, 7]
      = some [JumpEntry.Leaf 4, JumpEntry.Internal 75, JumpEntry.Leaf 7] ∧
    ∃ jump, PopulateJumpTable [4, 300, 7] = some jump ∧ jump.length = [4, 300, 7].length ∧
      ∀ (i : Nat) (hi : i < [4, 300, 7].length),
        ([4, 300, 7][i] > 255 → jump[i]? = some (JumpEntry.Internal
          (([4, 300, 7][i] + 2 ^ 32 - ([4, 300, 7][0] + 2 ^ 32 - 4) % 2 ^ 32) % 2 ^ 32 / 4))) ∧
        ([4, 300, 7][i] ≤ 255 → jump[i]? = some (JumpEntry.Leaf [4, 300, 7][i])) ∧
        (4 ≤ [4, 300, 7][0] → [4, 300, 7][0] - 4 ≤ [4, 300, 7][i] → [4, 300, 7][0] < 2 ^ 32 →
          [4, 300, 7][i] < 2 ^ 32 →
          ([4, 300, 7][i] + 2 ^ 32 - ([4, 300, 7][0] + 2 ^ 32 - 4) % 2 ^ 32) % 2 ^ 32 / 4
            = ([4, 300, 7][i] - ([4, 300, 7][0] - 4)) / 4) :=
  ⟨by decide, by decide, PopulateJumpTable_entries [4, 300, 7] (by decide)⟩

/-! ## Determinism of the packed result: claim C10 -/

/-- C12 (amended): `CompressedSize(bits) = ceil(bits / 8)` for every `bits` of
the unsigned size type with `bits ≤ 2 ^ 64 - 8`, the values for which
`bits + 7` does not wrap around; in particular `CompressedSize(0) = 0`,
`CompressedSize(7) = 1`, `CompressedSize(8) = 1` and `CompressedSize(9) = 2`. -/
theorem CompressedSize_ceil (bits : Nat) (h : bits ≤ 2 ^ 64 - 8) :
    CompressedSize bits = ⌈(bits : ℚ) / 8⌉₊ ∧
    (bits ≤ 8 * CompressedSize bits ∧ 8 * CompressedSize bits < bits + 8) ∧
    CompressedSize 0 = 0 ∧ CompressedSize 7 = 1 ∧ CompressedSize 8 = 1 ∧
    CompressedSize 9 = 2 := by
  have he : CompressedSize bits = (bits + 7) / 8 := CompressedSize_eq bits (by omega)
  have h1 : bits ≤ 8 * ((bits + 7) / 8) := by omega
  have h2 : 8 * ((bits + 7) / 8) < bits + 8 := by omega
  refine ⟨?_, ⟨by rw [he]; exact h1, by rw [he]; exact h2⟩, by decide, by decide, by decide,
    by decide⟩
  rw [he]
  symm
  by_cases hz : (bits + 7) / 8 = 0
  · have hb : bits = 0 := by omega
    subst hb
    simp
  · rw [Nat.ceil_eq_iff hz]
    constructor
    · have h3 : ((bits + 7) / 8 - 1 : ℕ) * 8 < bits := by omega
      have h4 : (((bits + 7) / 8 - 1 : ℕ) : ℚ) * 8 < (bits : ℚ) := by exact_mod_cast h3
      linarith
    · have h4 : (bits : ℚ) ≤ (8 : ℚ) * (((bits + 7) / 8 : ℕ) : ℚ) := by exact_mod_cast h1
      linarith

/-- Witness for C12: nine bits need two bytes. -/
theorem CompressedSize_ceil_witness :
    9 ≤ 2 ^ 64 - 8 ∧
    (CompressedSize 9 = ⌈((9 : ℕ) : ℚ) / 8⌉₊ ∧
      (9 ≤ 8 * CompressedSize 9 ∧ 8 * CompressedSize 9 < 9 + 8) ∧
      CompressedSize 0 = 0 ∧ CompressedSize 7 = 1 ∧ CompressedSize 8 = 1 ∧
      CompressedSize 9 = 2) :=
  ⟨by decide, CompressedSize_ceil 9 (by decide)⟩

/-- Counterexample to C12 as stated: for `bits = 2 ^ 64 - 1`, a value of the
unsigned size type, `bits + 7` wraps around to 6 and `CompressedSize` returns
0, while `ceil(bits / 8) = 2 ^ 61`. -/
theorem CompressedSize_ceil_counterexample :
    18446744073709551615 < 2 ^ 64 ∧ CompressedSize 18446744073709551615 = 0 ∧
    ⌈((18446744073709551615 : ℕ) : ℚ) / 8⌉₊ = 2305843009213693952 := by
  refine ⟨by decide, by decide, ?_⟩
  rw [Nat.ceil_eq_iff (by norm_num)]
  constructor <;> norm_num

/-! ## Table loading and initialization: claims C13 and C14 -/

/-- Four file bytes make one cell. -/
theorem cellsOfBytes_length : ∀ bytes : List Nat, (cellsOfBytes bytes).length = bytes.length / 4
  | [] => by simp [cellsOfBytes]
  | [_] => by simp [cellsOfBytes]
  | [_, _] => by simp [cellsOfBytes]
  | [_, _, _] => by simp [cellsOfBytes]
  | _ :: _ :: _ :: _ :: rest => by
      simp only [cellsOfBytes, List.length_cons, cellsOfBytes_length rest]
      omega

/-- Cell `k` is the little-endian value of file bytes `4k .. 4k+3`. -/
theorem cellsOfBytes_getElem? : ∀ (bytes : List Nat) (k : Nat), 4 * k + 3 < bytes.length →
    (cellsOfBytes bytes)[k]? = some (bytes.getD (4 * k) 0 + 256 * bytes.getD (4 * k + 1) 0
      + 65536 * bytes.getD (4 * k + 2) 0 + 16777216 * bytes.getD (4 * k + 3) 0)
  | [], _, h => by simp only [List.length_nil] at h; omega
  | [_], _, h => by simp only [List.length_cons, List.length_nil] at h; omega
  | [_, _], _, h => by simp only [List.length_cons, List.length_nil] at h; omega
  | [_, _, _], _, h => by simp only [List.length_cons, List.length_nil] at h; omega
  | b0 :: b1 :: b2 :: b3 :: rest, 0, _ => by
      simp [cellsOfBytes]
  | b0 :: b1 :: b2 :: b3 :: rest, k + 1, h => by
      have hk : 4 * k + 3 < rest.length := by
        simp only [List.length_cons] at h
        omega
      have hsh : ∀ n, (b0 :: b1 :: b2 :: b3 :: rest).getD (n + 4) 0 = rest.getD n 0 :=
        fun _ => rfl
      have e0 : 4 * (k + 1) = 4 * k + 4 := by omega
      have e1 : 4 * (k + 1) + 1 = 4 * k + 1 + 4 := by omega
      have e2 : 4 * (k + 1) + 2 = 4 * k + 2 + 4 := by omega
      have e3 : 4 * (k + 1) + 3 = 4 * k + 3 + 4 := by omega
      rw [e3, e2, e1, e0, hsh, hsh, hsh, hsh]
      simp only [cellsOfBytes, List.getElem?_cons_succ]
      exact cellsOfBytes_getElem? rest k hk

/-- C14: modelling an openable file as its byte sequence, `LoadTable` fails if
and only if the byte length is zero or not an exact multiple of 4 (a 7-byte
file fails), a failed load leaves the vector as it was, and on success the
vector holds exactly `length / 4` cells, where cell `k` is the 32-bit unsigned
integer formed from file bytes `4k .. 4k + 3` in file order (little-endian). -/
theorem LoadTable_size_validation (bytes out : List Nat) :
    ((LoadTable (some bytes) out).1 = false ↔ (bytes.length = 0 ∨ bytes.length % 4 ≠ 0)) ∧
    ((LoadTable (some bytes) out).1 = false → (LoadTable (some bytes) out).2 = out) ∧
    ((LoadTable (some bytes) out).1 = true →
      (LoadTable (some bytes) out).2.length = bytes.length / 4 ∧
      ∀ k, k < bytes.length / 4 →
        (LoadTable (some bytes) out).2[k]?
          = some (bytes.getD (4 * k) 0 + 256 * bytes.getD (4 * k + 1) 0
            + 65536 * bytes.getD (4 * k + 2) 0 + 16777216 * bytes.getD (4 * k + 3) 0)) ∧
    LoadTable (some [1, 2, 3, 4, 5, 6, 7]) out = (false, out) := by
  unfold LoadTable
  refine ⟨?_, ?_, ?_, ?_⟩
  · dsimp only
    split
    · rename_i h
      exact ⟨fun _ => by omega, fun _ => rfl⟩
    · rename_i h
      constructor
      · intro hf; simp at hf
      · intro hc; exact absurd (by omega) h
  · dsimp only
    split
    · intro _; rfl
    · intro hf; simp at hf
  · dsimp only
    split
    · intro hf; simp at hf
    · rename_i h
      intro _
      refine ⟨cellsOfBytes_length bytes, ?_⟩
      intro k hk
      exact cellsOfBytes_getElem? bytes k (by omega)
  · rfl

/-- C20: for every non-empty decode table of 32-bit cells whose first cell is
greater than 255, `PopulateJumpTable` makes entry 0 an internal reference whose
target index is exactly 1, because `(cells[0] - (cells[0] - 4)) / 4 = 1` in
32-bit unsigned arithmetic; and when the first cell is at most 255, entry 0
is the leaf `cells[0]`. -/
theorem PopulateJumpTable_root (cells : List Nat) (h0 : 0 < cells.length)
    (h32 : cells[0] < 2 ^ 32) :
    ∃ jump, PopulateJumpTable cells = some jump ∧
      (cells[0] > 255 →
        (cells[0] + 2 ^ 32 - (cells[0] + 2 ^ 32 - 4) % 2 ^ 32) % 2 ^ 32 / 4 = 1 ∧
        jump[0]? = some (JumpEntry.Internal 1)) ∧
      (cells[0] ≤ 255 → jump[0]? = some (JumpEntry.Leaf cells[0])) := by
  cases cells with
  | nil => simp at h0
  | cons d0 rest =>
    simp only [List.getElem_cons_zero] at h32 ⊢
    refine ⟨_, rfl, ?_, ?_⟩
    · intro hgt
      have h1 : (d0 + 2 ^ 32 - (d0 + 2 ^ 32 - 4) % 2 ^ 32) % 2 ^ 32 / 4 = 1 := by omega
      refine ⟨h1, ?_⟩
      simp only [List.map_cons, List.getElem?_cons_zero]
      rw [if_pos hgt, h1]
    · intro hle
      simp only [List.map_cons, List.getElem?_cons_zero]
      rw [if_neg (by omega)]

/-- Witness for C20: a table that starts with the cell 1000 has the root
reference 1. -/
theorem PopulateJumpTable_root_witness :
    0 < [1000, 300, 7].length ∧ [1000, 300, 7][0] < 2 ^ 32 ∧
    PopulateJumpTable [1000, 300, 7]
      = some [JumpEntry.Internal 1, JumpEntry.Internal 1073741650, JumpEntry.Leaf 7] ∧
    ∃ jump, PopulateJumpTable [1000, 300, 7] = some jump ∧
      ([1000, 300, 7][0] > 255 →
        ([1000, 300, 7][0] + 2 ^ 32 - ([1000, 300, 7][0] + 2 ^ 32 - 4) % 2 ^ 32) % 2 ^ 32 / 4 = 1 ∧
        jump[0]? = some (JumpEntry.Internal 1)) ∧
      ([1000, 300, 7][0] ≤ 255 → jump[0]? = some (JumpEntry.Leaf [1000, 300, 7][0])) :=
  ⟨by decide, by decide, by decide, PopulateJumpTable_root [1000, 300, 7] (by decide) (by decide)⟩

/-- A table file has four bytes per cell. -/
theorem fileOfCells_length : ∀ cells : List Nat, (fileOfCells cells).length = 4 * cells.length
  | [] => rfl
  | c :: cs => by
      simp only [fileOfCells, List.length_append, patternBytes_length, fileOfCells_length cs,
        List.length_cons]
      omega

/-- Reading back the file of a table of 32-bit cells gives the table. -/
theorem cellsOfBytes_fileOfCells : ∀ cells : List Nat, (∀ c ∈ cells, c < 2 ^ 32) →
    cellsOfBytes (fileOfCells cells) = cells
  | [], _ => rfl
  | c :: cs, h => by
      have hc : c < 2 ^ 32 := h c (List.mem_cons_self _ _)
      have ih := cellsOfBytes_fileOfCells cs (fun d hd => h d (List.mem_cons_of_mem _ hd))
      have e : c % 256 + 256 * (c / 256 % 256) + 65536 * (c / 65536 % 256)
          + 16777216 * (c / 16777216 % 256) = c := by omega
      show cellsOfBytes (c % 256 :: c / 256 % 256 :: c / 65536 % 256 :: c / 16777216 % 256
        :: fileOfCells cs) = c :: cs
      simp only [cellsOfBytes]
      rw [e, ih]

/-- Every cell of the example table is a 32-bit value. -/
theorem tableA_cells (len pat : Nat) (hl : len < 2 ^ 32) (hp : pat < 2 ^ 32) :
    ∀ c ∈ tableA len pat, c < 2 ^ 32 := by
  intro c hc
  unfold tableA at hc
  rcases List.mem_or_eq_of_mem_set hc with h1 | h1
  · rcases List.mem_or_eq_of_mem_set h1 with h2 | h2
    · rw [List.eq_of_mem_replicate h2]; omega
    · rw [h2]; exact hp
  · rw [h1]; exact hl

/-- When `compress.dat` cannot be opened or has an
invalid size, `Init` on a fresh codec fails, the codec is still fresh, and
every later `Compress` call returns -1. -/
theorem Init_compress_failure (compress decompress : Option (List Nat))
    (h : (LoadTable compress []).1 = false) (input out : List Nat) :
    Init freshCodec compress decompress = some (false, freshCodec) ∧
    Compress freshCodec.enc input out = some ⟨Mode.Failure, -1, out⟩ := by
  constructor
  · unfold Init
    cases compress with
    | none => rfl
    | some bytes =>
      unfold LoadTable at h ⊢
      dsimp only [freshCodec] at h ⊢
      split at h
      · rename_i hc
        rw [if_pos hc]
      · simp at h
  · rfl

set_option maxRecDepth 100000 in
/-- Counterexample to C13 as stated: `Init` loads `compress.dat` straight into
the member `enc_` and returns when `decompress.dat` fails.  With a well-formed
`compress.dat` (the 512 cells of the example table) and a `decompress.dat` that
cannot be opened, `Init` on a fresh codec returns failure, yet the codec's
encoding table is not empty afterwards: it holds the 512 cells, and a later
`Compress` call on `[0x41]` returns the packed result 12, not -1. -/
theorem Init_failure_retains_table :
    Init freshCodec (some (fileOfCells (tableA 4 5))) none
      = some (false, ⟨tableA 4 5, []⟩) ∧
    Compress (tableA 4 5) [0x41] [0, 0] = some ⟨Mode.Packed, 12, [1, 5]⟩ := by
  constructor
  · have hlen : (fileOfCells (tableA 4 5)).length = 2048 := by
      rw [fileOfCells_length, tableA_length]
    have hcells := cellsOfBytes_fileOfCells (tableA 4 5) (tableA_cells 4 5 (by decide) (by decide))
    unfold Init LoadTable
    dsimp only [freshCodec]
    rw [hlen, if_neg (by decide), hcells]
  · decide

/-! ## Edge cases of the budget check: claims C15 and C16 -/

/-- What `Compress` returns when, after a prefix that was written completely,
the length lookup of the next symbol succeeds and its budget check fails. -/
theorem Compress_budget_fail_lookup (enc input out : List Nat) (pre : List Nat) (s : Nat)
    (post : List Nat) (read : Nat) (out1 : List Nat) (elem : Nat)
    (hsplit : input = pre ++ s :: post)
    (hrun : runPrefix enc input.length (maxBits out.length) pre 0 out = some (read, out1))
    (hl : enc[lenIndex s]? = some elem)
    (hc : ¬ (elem + read) % 2 ^ 32 < maxBits out.length) :
    Compress enc input out
      = some (if input.length + 1 ≥ out.length
          then ⟨Mode.Stored, toInt32 input.length, storedFill input.length out1⟩
          else ⟨Mode.Failure, -1, out1⟩) := by
  have hne : enc.isEmpty = false := by
    cases enc with
    | nil => simp at hl
    | cons _ _ => rfl
  unfold Compress
  rw [hne]
  simp only [Bool.false_eq_true, if_false]
  conv_lhs => rw [hsplit]
  rw [encodeLoop_append enc _ _ pre (s :: post) 0 out read out1 (by rw [← hsplit]; exact hrun),
    encodeLoop_cons, encodeStep_budget_fail enc _ _ s read _ out1 hl hc,
    runPrefix_length enc _ _ pre 0 out read out1 hrun]
  rw [← hsplit]

/-- C15: for every table, input and output buffer of size at least 1, if
`Compress` reaches a symbol (all symbols before it written) for which the
current bit offset `read` plus the symbol's code length equals
`maxBits = (size - 1) * 8` exactly, then `Compress` does not write that code
and does not return a packed result: it returns the stored result, built on
the buffer the earlier symbols left, when `input.size() + 1 >= out.size()`,
and -1 with that buffer otherwise. -/
theorem Compress_exact_fit (enc input out : List Nat) (pre : List Nat) (s : Nat)
    (post : List Nat) (read : Nat) (out1 : List Nat) (elem : Nat)
    (hsplit : input = pre ++ s :: post)
    (hrun : runPrefix enc input.length (maxBits out.length) pre 0 out = some (read, out1))
    (hl : enc[lenIndex s]? = some elem) (hout : 1 ≤ out.length)
    (hfit : read + elem = (out.length - 1) * 8) :
    ∃ r, Compress enc input out = some r ∧ r.mode ≠ Mode.Packed ∧
      (input.length + 1 ≥ out.length →
        r = ⟨Mode.Stored, toInt32 input.length, storedFill input.length out1⟩) ∧
      (input.length + 1 < out.length → r = ⟨Mode.Failure, -1, out1⟩) := by
  have hc : ¬ (elem + read) % 2 ^ 32 < maxBits out.length := by
    have := maxBits_eq out.length hout
    omega
  have h := Compress_budget_fail_lookup enc input out pre s post read out1 elem hsplit hrun hl hc
  refine ⟨_, h, ?_, ?_, ?_⟩
  · split <;> simp
  · intro hge; rw [if_pos hge]
  · intro hlt; rw [if_neg (by omega)]

set_option maxRecDepth 100000 in
/-- Witness for C15: two 8-bit codes and a 3-byte buffer (`maxBits = 16`): the
second code would end exactly on bit 16, it is not written, and since
`2 + 1 >= 3` the stored fallback fires. -/
theorem Compress_exact_fit_witness :
    [65, 65] = [65] ++ 65 :: [] ∧
    runPrefix tableB [65, 65].length (maxBits [0, 0, 0].length) [65] 0 [0, 0, 0]
      = some (8, [0, 255, 0]) ∧
    tableB[lenIndex 65]? = some 8 ∧ 1 ≤ [0, 0, 0].length ∧ 8 + 8 = ([0, 0, 0].length - 1) * 8 ∧
    Compress tableB [65, 65] [0, 0, 0] = some ⟨Mode.Stored, 2, [0, 24, 24]⟩ ∧
    ∃ r, Compress tableB [65, 65] [0, 0, 0] = some r ∧ r.mode ≠ Mode.Packed ∧
      ([65, 65].length + 1 ≥ [0, 0, 0].length →
        r = ⟨Mode.Stored, toInt32 [65, 65].length, storedFill [65, 65].length [0, 255, 0]⟩) ∧
      ([65, 65].length + 1 < [0, 0, 0].length → r = ⟨Mode.Failure, -1, [0, 255, 0]⟩) :=
  ⟨rfl, by decide, by decide, by decide, by decide, by decide,
    Compress_exact_fit tableB [65, 65] [0, 0, 0] [65] 65 [] 8 [0, 255, 0] 8 rfl (by decide)
      (by decide) (by decide) (by decide)⟩

/-- C16: for every table, output buffer and bit offset `read < maxBits`, encoding
a symbol whose code length is 0 succeeds: the call of `CompressSub` returns 0
and leaves its destination unchanged, and the loop body falls through to the
next symbol with every byte of the output buffer and the bit offset `read`
unchanged. -/
theorem encodeStep_zero_length (enc : List Nat) (n b read : Nat) (out : List Nat)
    (hl : enc[lenIndex b]? = some 0) (hr : read < maxBits out.length) :
    (∃ pat, enc[patIndex b]? = some pat ∧
      CompressSub (patternBytes pat) read 0 (out.drop 1) (outSz out.length)
        = some (0, out.drop 1)) ∧
    encodeStep enc n (maxBits out.length) b read out = some (Step.Continue read out) := by
  have hpl : patIndex b < enc.length := by
    have := (List.getElem?_eq_some.mp hl).1
    exact Nat.lt_of_le_of_lt (patIndex_le_lenIndex b) this
  obtain ⟨pat, hp⟩ : ∃ pat, enc[patIndex b]? = some pat := ⟨_, List.getElem?_eq_getElem hpl⟩
  have hmb : maxBits out.length < 2 ^ 32 := by unfold maxBits; omega
  have hmod : (read + 0) % 2 ^ 32 = read := by
    rw [Nat.add_zero]; exact Nat.mod_eq_of_lt (by omega)
  have h1 : ¬ CompressedSize 0 > 4 := by unfold CompressedSize; norm_num
  have h2 : ¬ CompressedSize ((read + 0) % 2 ^ 32) > outSz out.length := by
    rw [hmod, CompressedSize_eq read (by omega)]
    unfold maxBits at hr
    unfold outSz
    omega
  have hcs : CompressSub (patternBytes pat) read 0 (out.drop 1) (outSz out.length)
      = some (0, out.drop 1) := by
    unfold CompressSub
    rw [if_neg h1, if_neg h2]
    rfl
  refine ⟨⟨_, hp, hcs⟩, ?_⟩
  have := encodeStep_of_ok enc n (maxBits out.length) b read 0 pat out (out.drop 1)
    hl hp (by rw [Nat.zero_add, Nat.mod_eq_of_lt (by omega)]; exact hr) hcs
  rw [this, hmod, List.take_append_drop]

set_option maxRecDepth 100000 in
/-- Witness for C16: symbol 1 has code length 0 in the example table; at bit
offset 3 of a 3-byte buffer nothing changes. -/
theorem encodeStep_zero_length_witness :
    tableB[lenIndex 1]? = some 0 ∧ 3 < maxBits [9, 9, 9].length ∧
    ((∃ pat, tableB[patIndex 1]? = some pat ∧
      CompressSub (patternBytes pat) 3 0 ([9, 9, 9].drop 1) (outSz [9, 9, 9].length)
        = some (0, [9, 9, 9].drop 1)) ∧
    encodeStep tableB 5 (maxBits [9, 9, 9].length) 1 3 [9, 9, 9]
      = some (Step.Continue 3 [9, 9, 9])) :=
  ⟨by decide, by decide, encodeStep_zero_length tableB 5 1 3 [9, 9, 9] (by decide) (by decide)⟩

/-! ## The bit offset along the encode loop: claims C17 and C18 -/

/-- A successful lookup returns a cell of the table. -/
theorem lookup_mem {enc : List Nat} {i elem : Nat} (h : enc[i]? = some elem) : elem ∈ enc := by
  obtain ⟨hi, he⟩ := List.getElem?_eq_some.mp h
  rw [← he]
  exact List.getElem_mem hi

/-- A 32-bit code length that passes the first check of `CompressSub` is at
most 32. -/
theorem elem_le_of_check {elem : Nat} (hu : elem < 2 ^ 32) (h : ¬ CompressedSize elem > 4) :
    elem ≤ 32 := by
  rw [CompressedSize_eq elem (by omega)] at h
  omega

/-- One iteration that falls through, for a buffer of at most `2 ^ 29 - 3`
bytes: the code had at most 32 bits, the bit offset grew by its length without
wrapping around and stays below `(size - 1) * 8`. -/
theorem encodeStep_read_bound {enc : List Nat} {n b read : Nat} {out : List Nat}
    {read1 : Nat} {out1 : List Nat} (hcells : ∀ c ∈ enc, c < 2 ^ 32)
    (hm1 : 1 ≤ out.length) (hm2 : out.length ≤ 2 ^ 29 - 3)
    (hinv : read = 0 ∨ read < (out.length - 1) * 8)
    (h : encodeStep enc n (maxBits out.length) b read out = some (Step.Continue read1 out1)) :
    ∃ elem, enc[lenIndex b]? = some elem ∧ elem ≤ 32 ∧ read1 = read + elem ∧
      read1 < (out.length - 1) * 8 := by
  obtain ⟨elem, pat, tl, hl, -, hc, hcs, hr1, -⟩ := encodeStep_continue h
  obtain ⟨h1, -, -⟩ := CompressSub_ok hcs
  have he : elem ≤ 32 := elem_le_of_check (hcells elem (lookup_mem hl)) h1
  have hmb := maxBits_small out.length hm1 (by omega)
  have hmod : (read + elem) % 2 ^ 32 = read + elem := Nat.mod_eq_of_lt (by omega)
  rw [Nat.add_comm, hmod, hmb] at hc
  rw [hmod] at hr1
  exact ⟨elem, hl, he, hr1, by omega⟩

/-- Along a prefix that is written completely the bit offset never decreases
and stays 0 or below `(size - 1) * 8`. -/
theorem runPrefix_read_bound (enc : List Nat) (n m : Nat) (hcells : ∀ c ∈ enc, c < 2 ^ 32)
    (hm1 : 1 ≤ m) (hm2 : m ≤ 2 ^ 29 - 3) :
    ∀ (pre : List Nat) (read : Nat) (out : List Nat) (read1 : Nat) (out1 : List Nat),
      out.length = m → (read = 0 ∨ read < (m - 1) * 8) →
      runPrefix enc n (maxBits m) pre read out = some (read1, out1) →
      read ≤ read1 ∧ (read1 = 0 ∨ read1 < (m - 1) * 8)
  | [], read, out, read1, out1, _, hinv, h => by
      simp only [runPrefix, Option.some.injEq, Prod.mk.injEq] at h
      rw [← h.1]
      exact ⟨Nat.le_refl _, hinv⟩
  | b :: pre, read, out, read1, out1, hlen, hinv, h => by
      rw [runPrefix_cons] at h
      cases hs : encodeStep enc n (maxBits m) b read out with
      | none => rw [hs] at h; simp at h
      | some st =>
        cases st with
        | Return r => rw [hs] at h; simp at h
        | Continue r2 o2 =>
          rw [hs] at h
          dsimp only at h
          have hl2 := encodeStep_length hs
          rw [← hlen] at hs
          obtain ⟨elem, -, -, hr2, hb2⟩ :=
            encodeStep_read_bound hcells (by omega) (by omega) (by rw [hlen]; exact hinv) hs
          rw [hlen] at hb2
          obtain ⟨h1, h2⟩ := runPrefix_read_bound enc n m hcells hm1 hm2 pre r2 o2 read1 out1
            (by rw [hl2, hlen]) (Or.inr hb2) h
          exact ⟨by omega, h2⟩

/-- A prefix run over a concatenation is the run over its first part followed
by the run over its second part. -/
theorem runPrefix_append (enc : List Nat) (n mb : Nat) :
    ∀ (p0 p1 : List Nat) (read : Nat) (out : List Nat) (read1 : Nat) (out1 : List Nat),
      runPrefix enc n mb (p0 ++ p1) read out = some (read1, out1) →
      ∃ read0 out0, runPrefix enc n mb p0 read out = some (read0, out0) ∧
        runPrefix enc n mb p1 read0 out0 = some (read1, out1)
  | [], p1, read, out, read1, out1, h => ⟨read, out, rfl, h⟩
  | b :: p0, p1, read, out, read1, out1, h => by
      rw [List.cons_append, runPrefix_cons] at h
      rw [runPrefix_cons]
      cases hs : encodeStep enc n mb b read out with
      | none => rw [hs] at h; simp at h
      | some st =>
        cases st with
        | Return r => rw [hs] at h; simp at h
        | Continue r2 o2 =>
          rw [hs] at h
          dsimp only at h ⊢
          exact runPrefix_append enc n mb p0 p1 r2 o2 read1 out1 h

/-- A packed result, traced back: every symbol was written, and the result is
built from the state the loop reached at its end. -/
theorem encodeLoop_packed_inv (enc : List Nat) (n mb : Nat) :
    ∀ (input : List Nat) (read : Nat) (out : List Nat) (r : Result),
      encodeLoop enc n mb input read out = some r → r.mode = Mode.Packed →
      ∃ read1 out1, runPrefix enc n mb input read out = some (read1, out1) ∧
        0 < out1.length ∧
        r = ⟨Mode.Packed, toInt32 ((read1 + 8) % 2 ^ 32), out1.set 0 1⟩
  | [], read, out, r, h, _ => by
      unfold encodeLoop at h
      split at h
      · rename_i hpos
        simp only [Option.some.injEq] at h
        exact ⟨read, out, rfl, hpos, h.symm⟩
      · simp at h
  | b :: rest, read, out, r, h, hm => by
      rw [encodeLoop_cons] at h
      rw [runPrefix_cons]
      cases hs : encodeStep enc n mb b read out with
      | none => rw [hs] at h; simp at h
      | some st =>
        cases st with
        | Return r0 =>
          rw [hs] at h
          simp only [Option.some.injEq] at h
          subst h
          exact absurd hm (encodeStep_return_mode hs)
        | Continue r2 o2 =>
          rw [hs] at h
          dsimp only at h ⊢
          exact encodeLoop_packed_inv enc n mb rest r2 o2 r h hm

/-- C18: for every table of 32-bit cells, every input and every output buffer of
size `m` with `1 ≤ m < 2 ^ 28`: at every iteration of the encode loop (after
every prefix of the input that was written) the bit offset `read` is 0 or
below `(m - 1) * 8`, and it is at least the offset after any shorter prefix;
consequently every packed result `r` returned by `Compress` satisfies
`8 ≤ r ≤ 8 * m`, so `CompressedSize(r) ≤ m` and the byte indices below
`CompressedSize(r)` that the caller reads back lie inside the output buffer,
which still has `m` bytes. -/
theorem Compress_read_invariant (enc input out : List Nat) (hcells : ∀ c ∈ enc, c < 2 ^ 32)
    (hm1 : 1 ≤ out.length) (hm2 : out.length < 2 ^ 28) :
    (∀ p0 p1 rest read out1, input = p0 ++ p1 ++ rest →
      runPrefix enc input.length (maxBits out.length) (p0 ++ p1) 0 out = some (read, out1) →
      (read = 0 ∨ read < (out.length - 1) * 8) ∧
      ∃ read0 out0, runPrefix enc input.length (maxBits out.length) p0 0 out
          = some (read0, out0) ∧ read0 ≤ read) ∧
    (∀ r, Compress enc input out = some r → r.mode = Mode.Packed →
      8 ≤ r.value ∧ r.value ≤ 8 * (out.length : Int) ∧
      CompressedSize r.value.toNat ≤ out.length ∧ r.out.length = out.length ∧
      ∀ i, i < CompressedSize r.value.toNat → i < r.out.length) := by
  have hb28 : out.length ≤ 2 ^ 29 - 3 := by omega
  constructor
  · intro p0 p1 rest read out1 _ hrun
    have hbound := runPrefix_read_bound enc input.length out.length hcells hm1 hb28
      (p0 ++ p1) 0 out read out1 rfl (Or.inl rfl) hrun
    refine ⟨hbound.2, ?_⟩
    obtain ⟨read0, out0, h0, h1⟩ := runPrefix_append enc _ _ p0 p1 0 out read out1 hrun
    have hl0 := runPrefix_length enc _ _ p0 0 out read0 out0 h0
    have hb0 := runPrefix_read_bound enc input.length out.length hcells hm1 hb28
      p0 0 out read0 out0 rfl (Or.inl rfl) h0
    have hb1 := runPrefix_read_bound enc input.length out.length hcells hm1 hb28
      p1 read0 out0 read out1 hl0 hb0.2 h1
    exact ⟨read0, out0, h0, hb1.1⟩
  · intro r hr hm
    unfold Compress at hr
    split at hr
    · simp only [Option.some.injEq] at hr
      subst hr
      simp at hm
    · obtain ⟨read1, out1, hrun, hpos, hres⟩ :=
        encodeLoop_packed_inv enc _ _ input 0 out r hr hm
      have hbound := runPrefix_read_bound enc input.length out.length hcells hm1 hb28
        input 0 out read1 out1 rfl (Or.inl rfl) hrun
      have hlen := runPrefix_length enc _ _ input 0 out read1 out1 hrun
      have hmod : (read1 + 8) % 2 ^ 32 = read1 + 8 := Nat.mod_eq_of_lt (by omega)
      have hv : r.value = ((read1 + 8 : Nat) : Int) := by
        rw [hres, hmod]
        exact toInt32_of_lt _ (by omega)
      have htn : r.value.toNat = read1 + 8 := by rw [hv]; rfl
      have hcs : CompressedSize (read1 + 8) = (read1 + 8 + 7) / 8 :=
        CompressedSize_eq _ (by omega)
      have hol : r.out.length = out.length := by rw [hres]; simp [hlen]
      refine ⟨by rw [hv]; omega, by rw [hv]; omega, by rw [htn, hcs]; omega, hol, ?_⟩
      intro i hi
      rw [htn, hcs] at hi
      rw [hol]
      omega

/-- Every cell of the second example table is a 32-bit value. -/
theorem tableB_cells : ∀ c ∈ tableB, c < 2 ^ 32 := by
  intro c hc
  unfold tableB at hc
  rcases List.mem_or_eq_of_mem_set hc with h1 | h1
  · rcases List.mem_or_eq_of_mem_set h1 with h2 | h2
    · rcases List.mem_or_eq_of_mem_set h2 with h3 | h3
      · rw [List.eq_of_mem_replicate h3]; omega
      · rw [h3]; omega
    · rw [h2]; omega
  · rw [h1]; omega

set_option maxRecDepth 100000 in
/-- Witness for C18: two 8-bit codes packed into a 4-byte buffer: the bit offset
goes 0, 8, 16 and the packed result is 24. -/
theorem Compress_read_invariant_witness :
    (∀ c ∈ tableB, c < 2 ^ 32) ∧ 1 ≤ [0, 0, 0, 0].length ∧ [0, 0, 0, 0].length < 2 ^ 28 ∧
    Compress tableB [65, 65] [0, 0, 0, 0] = some ⟨Mode.Packed, 24, [1, 255, 255, 0]⟩ ∧
    ((∀ p0 p1 rest read out1, [65, 65] = p0 ++ p1 ++ rest →
      runPrefix tableB [65, 65].length (maxBits [0, 0, 0, 0].length) (p0 ++ p1) 0 [0, 0, 0, 0]
        = some (read, out1) →
      (read = 0 ∨ read < ([0, 0, 0, 0].length - 1) * 8) ∧
      ∃ read0 out0, runPrefix tableB [65, 65].length (maxBits [0, 0, 0, 0].length) p0 0
          [0, 0, 0, 0] = some (read0, out0) ∧ read0 ≤ read) ∧
    (∀ r, Compress tableB [65, 65] [0, 0, 0, 0] = some r → r.mode = Mode.Packed →
      8 ≤ r.value ∧ r.value ≤ 8 * ([0, 0, 0, 0].length : Int) ∧
      CompressedSize r.value.toNat ≤ [0, 0, 0, 0].length ∧
      r.out.length = [0, 0, 0, 0].length ∧
      ∀ i, i < CompressedSize r.value.toNat → i < r.out.length)) :=
  ⟨tableB_cells, by decide, by decide, by decide,
    Compress_read_invariant tableB [65, 65] [0, 0, 0, 0] tableB_cells (by decide) (by decide)⟩

/-- A `return` inside the loop body that is a failure returns -1. -/
theorem encodeStep_return_failure {enc : List Nat} {n mb b read : Nat} {out : List Nat}
    {r : Result} (h : encodeStep enc n mb b read out = some (Step.Return r))
    (hm : r.mode = Mode.Failure) : r.value = -1 := by
  unfold encodeStep at h
  cases hl : enc[lenIndex b]? with
  | none => rw [hl] at h; simp at h
  | some elem =>
    rw [hl] at h
    dsimp only at h
    by_cases hc : (elem + read) % 2 ^ 32 < mb
    · rw [if_pos hc] at h
      cases hp : enc[patIndex b]? with
      | none => rw [hp] at h; simp at h
      | some pat =>
        rw [hp] at h
        dsimp only at h
        cases hcs : CompressSub (patternBytes pat) read elem (out.drop 1) (outSz out.length) with
        | none => rw [hcs] at h; simp at h
        | some res =>
          obtain ⟨r0, tl⟩ := res
          rw [hcs] at h
          dsimp only at h
          by_cases hr : r0 = 0
          · rw [if_neg (by simp [hr])] at h
            simp at h
          · rw [if_pos hr] at h
            simp only [Option.some.injEq, Step.Return.injEq] at h
            subst h
            rfl
    · rw [if_neg hc] at h
      by_cases hs : n + 1 ≥ out.length
      · rw [if_pos hs] at h
        simp only [Option.some.injEq, Step.Return.injEq] at h
        subst h
        simp at hm
      · rw [if_neg hs] at h
        simp only [Option.some.injEq, Step.Return.injEq] at h
        subst h
        rfl

/-- Every failure result of the encode loop carries the value -1. -/
theorem encodeLoop_failure_value (enc : List Nat) (n mb : Nat) :
    ∀ (input : List Nat) (read : Nat) (out : List Nat) (r : Result),
      encodeLoop enc n mb input read out = some r → r.mode = Mode.Failure → r.value = -1
  | [], read, out, r, h, hm => by
      unfold encodeLoop at h
      split at h
      · simp only [Option.some.injEq] at h
        subst h
        simp at hm
      · simp at h
  | b :: rest, read, out, r, h, hm => by
      rw [encodeLoop_cons] at h
      cases hs : encodeStep enc n mb b read out with
      | none => rw [hs] at h; simp at h
      | some st =>
        cases st with
        | Return r0 =>
          rw [hs] at h
          simp only [Option.some.injEq] at h
          subst h
          exact encodeStep_return_failure hs hm
        | Continue r2 o2 =>
          rw [hs] at h
          dsimp only at h
          exact encodeLoop_failure_value enc n mb rest r2 o2 r h hm

/-- With a table of at least 512 32-bit cells and a buffer of `1 ≤ m ≤ 2 ^ 29 - 3`
bytes, one iteration of the loop never leaves the table or the buffer. -/
theorem encodeStep_total (enc : List Nat) (n b read : Nat) (out : List Nat)
    (henc : 512 ≤ enc.length) (hcells : ∀ c ∈ enc, c < 2 ^ 32) (hb : b < 256)
    (hm1 : 1 ≤ out.length) (hm2 : out.length ≤ 2 ^ 29 - 3)
    (hinv : read = 0 ∨ read < (out.length - 1) * 8) :
    ∃ st, encodeStep enc n (maxBits out.length) b read out = some st := by
  have hl := lookup_Lengths enc b henc hb
  have hp := lookup_Patterns enc b henc hb
  have hu : Lengths enc b < 2 ^ 32 := hcells _ (lookup_mem hl)
  have hmb := maxBits_small out.length hm1 (by omega)
  by_cases hc : (Lengths enc b + read) % 2 ^ 32 < maxBits out.length
  · by_cases he : Lengths enc b ≤ 32
    · have hmod : (Lengths enc b + read) % 2 ^ 32 = Lengths enc b + read :=
        Nat.mod_eq_of_lt (by omega)
      rw [hmod] at hc
      obtain ⟨tl, -, hstep⟩ := encodeStep_write enc n b read _ _ out hl hp hm1 he (by omega)
      exact ⟨_, hstep⟩
    · exact ⟨_, encodeStep_overlong enc n _ b read _ out hl (by omega) hu hc⟩
  · exact ⟨_, encodeStep_budget_fail enc n _ b read _ out hl hc⟩

/-- With a table of at least 512 32-bit cells and a buffer of `1 ≤ m ≤ 2 ^ 29 - 3`
bytes, the encode loop always returns a result. -/
theorem encodeLoop_total (enc : List Nat) (n m : Nat) (henc : 512 ≤ enc.length)
    (hcells : ∀ c ∈ enc, c < 2 ^ 32) (hm1 : 1 ≤ m) (hm2 : m ≤ 2 ^ 29 - 3) :
    ∀ (input : List Nat) (read : Nat) (out : List Nat), (∀ b ∈ input, b < 256) →
      out.length = m → (read = 0 ∨ read < (m - 1) * 8) →
      ∃ r, encodeLoop enc n (maxBits m) input read out = some r
  | [], read, out, _, hlen, _ => by
      unfold encodeLoop
      rw [if_pos (by omega)]
      exact ⟨_, rfl⟩
  | b :: rest, read, out, hin, hlen, hinv => by
      rw [encodeLoop_cons]
      obtain ⟨st, hst⟩ := encodeStep_total enc n b read out henc hcells
        (hin b (List.mem_cons_self _ _)) (by omega) (by omega) (by rw [hlen]; exact hinv)
      rw [hlen] at hst
      rw [hst]
      cases st with
      | Return r => exact ⟨r, rfl⟩
      | Continue r2 o2 =>
        dsimp only
        have hl2 := encodeStep_length hst
        rw [← hlen] at hst
        obtain ⟨elem, -, -, -, hb2⟩ :=
          encodeStep_read_bound hcells (by omega) (by omega) (by rw [hlen]; exact hinv) hst
        rw [hlen] at hb2
        exact encodeLoop_total enc n m henc hcells hm1 hm2 rest r2 o2
          (fun c hc => hin c (List.mem_cons_of_mem _ hc)) (by rw [hl2, hlen]) (Or.inr hb2)

/-- The value of a packed result for a buffer of at most `2 ^ 28` bytes: the
final bit offset plus 8, with the offset 0 or below `(size - 1) * 8`. -/
theorem Compress_packed_value (enc input out : List Nat) (hcells : ∀ c ∈ enc, c < 2 ^ 32)
    (hm1 : 1 ≤ out.length) (hm2 : out.length ≤ 2 ^ 28) (r : Result)
    (hr : Compress enc input out = some r) (hm : r.mode = Mode.Packed) :
    ∃ read1, r.value = ((read1 + 8 : Nat) : Int) ∧
      (read1 = 0 ∨ read1 < (out.length - 1) * 8) := by
  unfold Compress at hr
  split at hr
  · simp only [Option.some.injEq] at hr
    subst hr
    simp at hm
  · obtain ⟨read1, out1, hrun, -, hres⟩ := encodeLoop_packed_inv enc _ _ input 0 out r hr hm
    have hbound := runPrefix_read_bound enc input.length out.length hcells hm1 (by omega)
      input 0 out read1 out1 rfl (Or.inl rfl) hrun
    have hmod : (read1 + 8) % 2 ^ 32 = read1 + 8 := Nat.mod_eq_of_lt (by omega)
    refine ⟨read1, ?_, hbound.2⟩
    rw [hres, hmod]
    exact toInt32_of_lt _ (by omega)

/-- C19 (amended): for every table and every input of length `n`, when the output
buffer has size `2 * n + 64` (as `main` allocates it), the condition
`n + 1 >= out.size()` is false, so `Compress` never returns a stored result:
whatever it returns is -1 or a packed result with output byte 0 = 1.  For a
table of at least 512 32-bit cells and `2 * n + 64 ≤ 2 ^ 28` the call does
return, and a packed return value is at least 8. -/
theorem Compress_main_capacity (enc input out : List Nat)
    (hsize : out.length = 2 * input.length + 64) :
    ¬ input.length + 1 ≥ out.length ∧
    (∀ r, Compress enc input out = some r →
      r.mode ≠ Mode.Stored ∧ (r.mode = Mode.Failure → r.value = -1) ∧
      (r.mode = Mode.Packed → r.out[0]? = some 1)) ∧
    (512 ≤ enc.length → (∀ c ∈ enc, c < 2 ^ 32) → (∀ b ∈ input, b < 256) →
      out.length ≤ 2 ^ 28 →
      ∃ r, Compress enc input out = some r ∧ r.mode ≠ Mode.Stored ∧
        ((r.mode = Mode.Failure ∧ r.value = -1) ∨
          (r.mode = Mode.Packed ∧ r.out[0]? = some 1 ∧ 8 ≤ r.value))) := by
  have hgen : ∀ r, Compress enc input out = some r →
      r.mode ≠ Mode.Stored ∧ (r.mode = Mode.Failure → r.value = -1) ∧
      (r.mode = Mode.Packed → r.out[0]? = some 1) := by
    intro r hr
    refine ⟨?_, ?_, ?_⟩
    · intro hm
      obtain ⟨_, _, _, _, _, _, _, _, hge, _⟩ := Compress_stored_inv hr hm
      omega
    · intro hm
      unfold Compress at hr
      split at hr
      · simp only [Option.some.injEq] at hr
        rw [← hr]
      · exact encodeLoop_failure_value enc _ _ input 0 out r hr hm
    · intro hm
      unfold Compress at hr
      split at hr
      · simp only [Option.some.injEq] at hr
        subst hr
        simp at hm
      · obtain ⟨read1, out1, -, hpos, hres⟩ := encodeLoop_packed_inv enc _ _ input 0 out r hr hm
        rw [hres]
        exact List.getElem?_set_self hpos
  refine ⟨by omega, hgen, ?_⟩
  intro henc hcells hin hbig
  have hne : enc.isEmpty = false := by
    cases enc with
    | nil => simp at henc
    | cons _ _ => rfl
  obtain ⟨r, hr⟩ := encodeLoop_total enc input.length out.length henc hcells (by omega)
    (by omega) input 0 out hin rfl (Or.inl rfl)
  have hC : Compress enc input out = some r := by
    unfold Compress
    rw [hne]
    simp only [Bool.false_eq_true, if_false]
    exact hr
  obtain ⟨h1, h2, h3⟩ := hgen r hC
  refine ⟨r, hC, h1, ?_⟩
  cases hmode : r.mode with
  | Stored => exact absurd hmode h1
  | Failure => exact Or.inl ⟨rfl, h2 hmode⟩
  | Packed =>
    refine Or.inr ⟨rfl, h3 hmode, ?_⟩
    obtain ⟨read1, hv, -⟩ :=
      Compress_packed_value enc input out hcells (by omega) hbig r hC hmode
    rw [hv]
    omega

/-- The code lengths of `k` copies of one symbol add up to `k` code lengths. -/
theorem sumLengths_replicate (enc : List Nat) (b : Nat) :
    ∀ k : Nat, sumLengths enc (List.replicate k b) = k * Lengths enc b
  | 0 => by simp [sumLengths]
  | k + 1 => by
      rw [List.replicate_succ, sumLengths_cons, sumLengths_replicate enc b k, Nat.succ_mul,
        Nat.add_comm]

set_option maxRecDepth 100000 in
/-- Witness for C19: one input byte and the 66-byte buffer `main` allocates for
it; the 4-bit code is packed and the result is 12. -/
theorem Compress_main_capacity_witness :
    (List.replicate 66 0).length = 2 * [65].length + 64 ∧
    Compress (tableA 4 5) [65] (List.replicate 66 0)
      = some ⟨Mode.Packed, 12, 1 :: 5 :: List.replicate 64 0⟩ ∧
    (¬ [65].length + 1 ≥ (List.replicate 66 0).length ∧
      (∀ r, Compress (tableA 4 5) [65] (List.replicate 66 0) = some r →
        r.mode ≠ Mode.Stored ∧ (r.mode = Mode.Failure → r.value = -1) ∧
        (r.mode = Mode.Packed → r.out[0]? = some 1)) ∧
      (512 ≤ (tableA 4 5).length → (∀ c ∈ tableA 4 5, c < 2 ^ 32) → (∀ b ∈ [65], b < 256) →
        (List.replicate 66 0).length ≤ 2 ^ 28 →
        ∃ r, Compress (tableA 4 5) [65] (List.replicate 66 0) = some r ∧
          r.mode ≠ Mode.Stored ∧
          ((r.mode = Mode.Failure ∧ r.value = -1) ∨
            (r.mode = Mode.Packed ∧ r.out[0]? = some 1 ∧ 8 ≤ r.value)))) :=
  ⟨by decide, by decide,
    Compress_main_capacity (tableA 4 5) [65] (List.replicate 66 0) (by decide)⟩

/-- Counterexample to C19 as stated, in two parts.  With an encoding table of a
single cell (a 4-byte `compress.dat` passes `LoadTable`), one input byte and
the 66-byte buffer, the length lookup at index `0x1C1` leaves the table:
`Compress` returns neither -1 nor a packed result.  And with `2 ^ 27` input
bytes whose codes have 16 bits and the buffer of `2 ^ 28 + 64` bytes, every
code fits and `Compress` returns the packed result
`static_cast<int32_t>(2 ^ 31 + 8) = -2147483640`, which is below 8. -/
theorem Compress_main_capacity_counterexample :
    ((List.replicate 66 0).length = 2 * [65].length + 64 ∧
      Compress [0] [65] (List.replicate 66 0) = none) ∧
    ((List.replicate 268435520 0).length = 2 * (List.replicate 134217728 65).length + 64 ∧
      ∃ r, Compress (tableA 16 0) (List.replicate 134217728 65) (List.replicate 268435520 0)
          = some r ∧ r.mode = Mode.Packed ∧ r.out[0]? = some 1 ∧ r.value = -2147483640) := by
  refine ⟨⟨by decide, by decide⟩, ?_, ?_⟩
  · rw [List.length_replicate, List.length_replicate]
  · have hsum : sumLengths (tableA 16 0) (List.replicate 134217728 65) = 2147483648 := by
      rw [sumLengths_replicate, tableA_Lengths]
    obtain ⟨r, hr, hm, hv, -, h0, -⟩ := Compress_packed_aux (tableA 16 0)
      (List.replicate 134217728 65) (List.replicate 268435520 0)
      (by rw [tableA_length])
      (fun b hb => by rw [List.eq_of_mem_replicate hb]; omega)
      (by rw [List.length_replicate]; omega)
      (fun b hb => by rw [List.eq_of_mem_replicate hb, tableA_Lengths]; omega)
      (by intro _; rw [hsum, List.length_replicate]; decide)
    refine ⟨r, hr, hm, h0, ?_⟩
    rw [hv, hsum]
    decide

/-! ## The stored result and the buffer it is built on: claims C5 and C6 -/

/-- A stored result, traced back to the iteration that produced it: a prefix of
the input was written completely, the budget check of the next symbol failed,
`input.size() + 1 >= out.size()` held, and the result is the stored fill of
the buffer that prefix left. -/
theorem Compress_stored_pinned {enc input out : List Nat} {r : Result}
    (h : Compress enc input out = some r) (hm : r.mode = Mode.Stored) :
    ∃ pre s post read out1 elem, input = pre ++ s :: post ∧
      runPrefix enc input.length (maxBits out.length) pre 0 out = some (read, out1) ∧
      enc[lenIndex s]? = some elem ∧ ¬ (elem + read) % 2 ^ 32 < maxBits out.length ∧
      input.length + 1 ≥ out.length ∧ out1.length = out.length ∧
      r = ⟨Mode.Stored, toInt32 input.length, storedFill input.length out1⟩ := by
  unfold Compress at h
  split at h
  · simp only [Option.some.injEq] at h
    subst h
    simp at hm
  · obtain ⟨pre, s, post, read1, out1, hsplit, hrun, hst⟩ :=
      encodeLoop_stored enc _ _ input 0 out r h hm
    obtain ⟨elem, hl, hc, hge, hr⟩ := encodeStep_stored hst hm
    have hlen := runPrefix_length enc _ _ pre 0 out read1 out1 hrun
    exact ⟨pre, s, post, read1, out1, elem, hsplit, hrun, hl, hc, by rw [← hlen]; exact hge,
      hlen, hr⟩

/-- The buffer of a stored result is the stored fill of the buffer left by the
written prefix that ends at a symbol whose budget check fails, whichever way
that prefix is named. -/
theorem Compress_stored_out {enc input out : List Nat} {r : Result}
    (h : Compress enc input out = some r) (hm : r.mode = Mode.Stored)
    (pre : List Nat) (s : Nat) (post : List Nat) (read : Nat) (out1 : List Nat) (elem : Nat)
    (hsplit : input = pre ++ s :: post)
    (hrun : runPrefix enc input.length (maxBits out.length) pre 0 out = some (read, out1))
    (hl : enc[lenIndex s]? = some elem)
    (hc : ¬ (elem + read) % 2 ^ 32 < maxBits out.length) :
    r.out = storedFill input.length out1 := by
  have h2 := Compress_budget_fail_lookup enc input out pre s post read out1 elem hsplit hrun hl hc
  rw [h] at h2
  simp only [Option.some.injEq] at h2
  by_cases hge : input.length + 1 ≥ out.length
  · rw [if_pos hge] at h2
    rw [h2]
  · rw [if_neg hge] at h2
    rw [h2] at hm
    simp at hm

/-- C5 (amended): whenever `Compress` takes the stored fallback with input length
`n` and output size `m`, it returns `n` converted to `int32_t`, which is `n`
itself whenever `n < 2 ^ 31`, and the resulting buffer is the pre-fallback
buffer after the three fills of the specification applied in order: bytes
`[0, min(m / 4 + n % 4, m))` set to 0; if `n / 4 > 0` and `m > 1`, bytes
`[1, 1 + min(n / 4, m - 1))` set to `n % 256`; with `offset = 1 + n / 4`, if
`n % 4 > 0` and `offset < m`, bytes `[offset, offset + min(n % 4, m - offset))`
set to `((n + 1) * 8) % 256`.  The pre-fallback buffer is the buffer `out1` left
by writing the symbols before the first symbol whose budget check fails: such
a split of the input exists, and for every split of the input into a written
prefix and a symbol whose budget check fails the result is the fill of the
buffer that prefix left, packed bits included. -/
theorem Compress_stored_fill (enc input out : List Nat) (r : Result)
    (h : Compress enc input out = some r) (hm : r.mode = Mode.Stored) :
    r.value = toInt32 input.length ∧
    (input.length < 2 ^ 31 → r.value = (input.length : Int)) ∧
    (∃ pre s post read out1 elem, input = pre ++ s :: post ∧
      runPrefix enc input.length (maxBits out.length) pre 0 out = some (read, out1) ∧
      enc[lenIndex s]? = some elem ∧ ¬ (elem + read) % 2 ^ 32 < maxBits out.length ∧
      input.length + 1 ≥ out.length ∧ out1.length = out.length ∧
      r.out = storedFillSpec input.length out1) ∧
    (∀ pre s post read out1 elem, input = pre ++ s :: post →
      runPrefix enc input.length (maxBits out.length) pre 0 out = some (read, out1) →
      enc[lenIndex s]? = some elem → ¬ (elem + read) % 2 ^ 32 < maxBits out.length →
      out1.length = out.length ∧ r.out = storedFillSpec input.length out1) := by
  obtain ⟨pre, s, post, read, out1, elem, hsplit, hrun, hl, hc, hge, hlen, hr⟩ :=
    Compress_stored_pinned h hm
  refine ⟨by rw [hr], fun hlt => by rw [hr]; exact toInt32_of_lt _ hlt,
    ⟨pre, s, post, read, out1, elem, hsplit, hrun, hl, hc, hge, hlen, ?_⟩, ?_⟩
  · rw [hr]
    exact storedFill_eq_spec _ _
  · intro pre' s' post' read' out1' elem' hsplit' hrun' hl' hc'
    refine ⟨runPrefix_length enc _ _ pre' 0 out read' out1' hrun', ?_⟩
    rw [Compress_stored_out h hm pre' s' post' read' out1' elem' hsplit' hrun' hl' hc']
    exact storedFill_eq_spec _ _

set_option maxRecDepth 100000 in
/-- Witness for C5, in two runs.  With `n = 5`, `m = 3` and a 100-bit code the
budget check fails at the first symbol and the buffer `[9, 9, 9]` becomes
`[0, 5, 48]`, the return value is 5.  With eight input bytes and a 9-byte
buffer of sevens, four 8-bit codes are packed first; the fill is applied to
the buffer `[7, 255, 255, 255, 255, 7, 7, 7, 7]` they left, not to the buffer
from before the call. -/
theorem Compress_stored_fill_witness :
    Compress (tableA 100 5) [65, 1, 2, 3, 4] [9, 9, 9] = some ⟨Mode.Stored, 5, [0, 5, 48]⟩ ∧
    Compress tableB [65, 65, 65, 65, 66, 65, 65, 65] [7, 7, 7, 7, 7, 7, 7, 7, 7]
      = some ⟨Mode.Stored, 8, [0, 8, 8, 255, 255, 7, 7, 7, 7]⟩ ∧
    (⟨Mode.Stored, 8, [0, 8, 8, 255, 255, 7, 7, 7, 7]⟩ : Result).mode = Mode.Stored ∧
    [65, 65, 65, 65, 66, 65, 65, 65] = [65, 65, 65, 65] ++ 66 :: [65, 65, 65] ∧
    runPrefix tableB [65, 65, 65, 65, 66, 65, 65, 65].length
      (maxBits [7, 7, 7, 7, 7, 7, 7, 7, 7].length) [65, 65, 65, 65] 0
      [7, 7, 7, 7, 7, 7, 7, 7, 7] = some (32, [7, 255, 255, 255, 255, 7, 7, 7, 7]) ∧
    tableB[lenIndex 66]? = some 64 ∧
    ¬ (64 + 32) % 2 ^ 32 < maxBits [7, 7, 7, 7, 7, 7, 7, 7, 7].length ∧
    storedFillSpec 8 [7, 255, 255, 255, 255, 7, 7, 7, 7] = [0, 8, 8, 255, 255, 7, 7, 7, 7] ∧
    storedFillSpec 8 [7, 7, 7, 7, 7, 7, 7, 7, 7] ≠ [0, 8, 8, 255, 255, 7, 7, 7, 7] ∧
    ([7, 255, 255, 255, 255, 7, 7, 7, 7].length = [7, 7, 7, 7, 7, 7, 7, 7, 7].length ∧
      (⟨Mode.Stored, 8, [0, 8, 8, 255, 255, 7, 7, 7, 7]⟩ : Result).out
        = storedFillSpec [65, 65, 65, 65, 66, 65, 65, 65].length
            [7, 255, 255, 255, 255, 7, 7, 7, 7]) :=
  ⟨by decide, by decide, rfl, rfl, by decide, by decide, by decide, by decide, by decide,
    (Compress_stored_fill tableB [65, 65, 65, 65, 66, 65, 65, 65] [7, 7, 7, 7, 7, 7, 7, 7, 7]
      ⟨Mode.Stored, 8, [0, 8, 8, 255, 255, 7, 7, 7, 7]⟩ (by decide) rfl).2.2.2
      [65, 65, 65, 65] 66 [65, 65, 65] 32 [7, 255, 255, 255, 255, 7, 7, 7, 7] 64 rfl
      (by decide) (by decide) (by decide)⟩

/-- C6 (amended): whenever `Compress` returns a stored result for an input of `n`
bytes and a buffer of `m` bytes, the buffer keeps its size and the stored fill
overwrites only its three fill ranges: every byte at an index `i` with
`m / 4 + n % 4 ≤ i` and (`i = 0` or `1 + n / 4 + n % 4 ≤ i`) keeps the value it
had in the pre-fallback buffer, the buffer `out1` left by writing the symbols
before the first symbol whose budget check fails.  Such a split of the input
exists, and the statement holds for every split of the input into a written
prefix and a symbol whose budget check fails; so the packed bits that prefix
wrote into those bytes, and the content from before the call that it did not
touch, survive in the result. -/
theorem Compress_stored_frame (enc input out : List Nat) (r : Result)
    (h : Compress enc input out = some r) (hm : r.mode = Mode.Stored) :
    r.out.length = out.length ∧
    (∃ pre s post read out1 elem, input = pre ++ s :: post ∧
      runPrefix enc input.length (maxBits out.length) pre 0 out = some (read, out1) ∧
      enc[lenIndex s]? = some elem ∧ ¬ (elem + read) % 2 ^ 32 < maxBits out.length) ∧
    (∀ pre s post read out1 elem, input = pre ++ s :: post →
      runPrefix enc input.length (maxBits out.length) pre 0 out = some (read, out1) →
      enc[lenIndex s]? = some elem → ¬ (elem + read) % 2 ^ 32 < maxBits out.length →
      ∀ i, out.length / 4 + input.length % 4 ≤ i →
        (i = 0 ∨ 1 + input.length / 4 + input.length % 4 ≤ i) →
        r.out[i]? = out1[i]?) := by
  obtain ⟨pre, s, post, read, out1, elem, hsplit, hrun, hl, hc, -, hlen, hr⟩ :=
    Compress_stored_pinned h hm
  refine ⟨?_, ⟨pre, s, post, read, out1, elem, hsplit, hrun, hl, hc⟩, ?_⟩
  · rw [hr]
    show (storedFill input.length out1).length = out.length
    rw [storedFill_eq_spec, ← hlen]
    unfold storedFillSpec
    dsimp only
    split_ifs <;> simp only [length_setRange]
  · intro pre' s' post' read' out1' elem' hsplit' hrun' hl' hc' i h1 h2
    have hlen' := runPrefix_length enc _ _ pre' 0 out read' out1' hrun'
    rw [Compress_stored_out h hm pre' s' post' read' out1' elem' hsplit' hrun' hl' hc',
      storedFill_getElem?, hlen']
    cases out1'[i]? with
    | none => rfl
    | some x =>
      simp only [Option.map_some']
      rw [if_neg (by omega), if_neg (by omega), if_neg (by omega)]

set_option maxRecDepth 100000 in
/-- Witness for C6: eight input bytes and a 9-byte buffer of sevens.  The four
8-bit codes `0xFF` written before the fallback leave
`[7, 255, 255, 255, 255, 7, 7, 7, 7]`; in the stored result bytes 3 and 4 still
hold those packed bits and bytes 5 to 8 the sevens from before the call. -/
theorem Compress_stored_frame_witness :
    Compress tableB [65, 65, 65, 65, 66, 65, 65, 65] [7, 7, 7, 7, 7, 7, 7, 7, 7]
      = some ⟨Mode.Stored, 8, [0, 8, 8, 255, 255, 7, 7, 7, 7]⟩ ∧
    (⟨Mode.Stored, 8, [0, 8, 8, 255, 255, 7, 7, 7, 7]⟩ : Result).mode = Mode.Stored ∧
    [65, 65, 65, 65, 66, 65, 65, 65] = [65, 65, 65, 65] ++ 66 :: [65, 65, 65] ∧
    runPrefix tableB [65, 65, 65, 65, 66, 65, 65, 65].length
      (maxBits [7, 7, 7, 7, 7, 7, 7, 7, 7].length) [65, 65, 65, 65] 0
      [7, 7, 7, 7, 7, 7, 7, 7, 7] = some (32, [7, 255, 255, 255, 255, 7, 7, 7, 7]) ∧
    tableB[lenIndex 66]? = some 64 ∧
    ¬ (64 + 32) % 2 ^ 32 < maxBits [7, 7, 7, 7, 7, 7, 7, 7, 7].length ∧
    [7, 7, 7, 7, 7, 7, 7, 7, 7].length / 4 + [65, 65, 65, 65, 66, 65, 65, 65].length % 4 ≤ 3 ∧
    (3 = 0 ∨ 1 + [65, 65, 65, 65, 66, 65, 65, 65].length / 4
      + [65, 65, 65, 65, 66, 65, 65, 65].length % 4 ≤ 3) ∧
    (⟨Mode.Stored, 8, [0, 8, 8, 255, 255, 7, 7, 7, 7]⟩ : Result).out[3]?
      = [7, 255, 255, 255, 255, 7, 7, 7, 7][3]? :=
  ⟨by decide, rfl, rfl, by decide, by decide, by decide, by decide, by decide,
    (Compress_stored_frame tableB [65, 65, 65, 65, 66, 65, 65, 65] [7, 7, 7, 7, 7, 7, 7, 7, 7]
      ⟨Mode.Stored, 8, [0, 8, 8, 255, 255, 7, 7, 7, 7]⟩ (by decide) rfl).2.2
      [65, 65, 65, 65] 66 [65, 65, 65] 32 [7, 255, 255, 255, 255, 7, 7, 7, 7] 64 rfl
      (by decide) (by decide) (by decide) 3 (by decide) (by decide)⟩

/-! ## Determinism and frame of the packed result: claim C10 -/

/-- In a table of at least 512 cells an iteration of the encode loop is
undefined only when the budget check passes and the bit writer leaves its
storage: neither table lookup fails. -/
theorem encodeStep_none_iff (enc : List Nat) (n mb b read : Nat) (out : List Nat)
    (henc : 512 ≤ enc.length) (hb : b < 256) :
    encodeStep enc n mb b read out = none ↔
      ((Lengths enc b + read) % 2 ^ 32 < mb ∧
        CompressSub (patternBytes (Patterns enc b)) read (Lengths enc b) (out.drop 1)
          (outSz out.length) = none) := by
  have hl := lookup_Lengths enc b henc hb
  have hp := lookup_Patterns enc b henc hb
  unfold encodeStep
  rw [hl]
  dsimp only
  by_cases hc : (Lengths enc b + read) % 2 ^ 32 < mb
  · rw [if_pos hc, hp]
    dsimp only
    cases hcs : CompressSub (patternBytes (Patterns enc b)) read (Lengths enc b) (out.drop 1)
        (outSz out.length) with
    | none => exact ⟨fun _ => ⟨hc, rfl⟩, fun _ => rfl⟩
    | some p =>
      obtain ⟨r, tl⟩ := p
      dsimp only
      by_cases hr : r ≠ 0
      · rw [if_pos hr]; simp
      · rw [if_neg hr]; simp
  · rw [if_neg hc]
    constructor
    · intro h
      split at h <;> simp at h
    · intro h
      exact absurd h.1 hc

/-- The encode loop is undefined exactly when some iteration it reaches is
undefined, or when it reaches `out[0] = 1` with an empty buffer. -/
theorem encodeLoop_none_iff (enc : List Nat) (n mb : Nat) :
    ∀ (input : List Nat) (read : Nat) (out : List Nat),
      encodeLoop enc n mb input read out = none ↔
        ((∃ pre s post read1 out1, input = pre ++ s :: post ∧
            runPrefix enc n mb pre read out = some (read1, out1) ∧
            encodeStep enc n mb s read1 out1 = none) ∨
          (∃ read1 out1, runPrefix enc n mb input read out = some (read1, out1) ∧
            out1.length = 0))
  | [], read, out => by
      unfold encodeLoop
      constructor
      · intro h
        split at h
        · simp at h
        · exact Or.inr ⟨read, out, rfl, by omega⟩
      · intro h
        rcases h with ⟨pre, s, post, read1, out1, hsplit, -, -⟩ | ⟨read1, out1, hrun, hlen⟩
        · simp at hsplit
        · simp only [runPrefix, Option.some.injEq, Prod.mk.injEq] at hrun
          rw [if_neg (by rw [hrun.2]; omega)]
  | b :: rest, read, out => by
      rw [encodeLoop_cons]
      cases hs : encodeStep enc n mb b read out with
      | none =>
        simp only [true_iff]
        exact Or.inl ⟨[], b, rest, read, out, rfl, rfl, hs⟩
      | some st =>
        cases st with
        | Return r =>
          dsimp only
          constructor
          · intro h
            simp at h
          · intro h
            exfalso
            rcases h with ⟨pre, s, post, read1, out1, hsplit, hrun, hnone⟩ |
              ⟨read1, out1, hrun, hlen⟩
            · cases pre with
              | nil =>
                simp only [List.nil_append, List.cons.injEq] at hsplit
                simp only [runPrefix, Option.some.injEq, Prod.mk.injEq] at hrun
                rw [← hsplit.1, ← hrun.1, ← hrun.2, hs] at hnone
                simp at hnone
              | cons c pre =>
                simp only [List.cons_append, List.cons.injEq] at hsplit
                rw [runPrefix_cons, ← hsplit.1, hs] at hrun
                simp at hrun
            · rw [runPrefix_cons, hs] at hrun
              simp at hrun
        | Continue r2 o2 =>
          dsimp only
          rw [encodeLoop_none_iff enc n mb rest r2 o2]
          constructor
          · intro h
            rcases h with ⟨pre, s, post, read1, out1, hsplit, hrun, hnone⟩ |
              ⟨read1, out1, hrun, hlen⟩
            · refine Or.inl ⟨b :: pre, s, post, read1, out1, by rw [hsplit]; rfl, ?_, hnone⟩
              rw [runPrefix_cons, hs]
              exact hrun
            · refine Or.inr ⟨read1, out1, ?_, hlen⟩
              rw [runPrefix_cons, hs]
              exact hrun
          · intro h
            rcases h with ⟨pre, s, post, read1, out1, hsplit, hrun, hnone⟩ |
              ⟨read1, out1, hrun, hlen⟩
            · cases pre with
              | nil =>
                simp only [List.nil_append, List.cons.injEq] at hsplit
                simp only [runPrefix, Option.some.injEq, Prod.mk.injEq] at hrun
                rw [← hsplit.1, ← hrun.1, ← hrun.2, hs] at hnone
                simp at hnone
              | cons c pre =>
                simp only [List.cons_append, List.cons.injEq] at hsplit
                rw [runPrefix_cons, ← hsplit.1, hs] at hrun
                exact Or.inl ⟨pre, s, post, read1, out1, hsplit.2, hrun, hnone⟩
            · rw [runPrefix_cons, hs] at hrun
              exact Or.inr ⟨read1, out1, hrun, hlen⟩

/-- C11: for every input byte `b`, `Compress` reads the code length at table
index `s + 0x180` and the pattern at index `s + 0x80`, where `s` is `b`
reinterpreted as a signed 8-bit value (`b - 256` for `b ≥ 0x80`); the length
index lies in `[0x100, 0x1FF]` and the pattern index in `[0x00, 0xFF]`, hence
for every encoding table of at least 512 cells no table lookup made by
`Compress` is out of range: both lookups of every loop iteration succeed, an
iteration is undefined exactly when its budget check passes and `CompressSub`
leaves the output storage, and a call of `Compress` is undefined exactly when
an iteration it reaches is undefined in that way or when the whole input is
written and the final `out[0] = 1` meets an empty buffer. -/
theorem table_index_in_range (enc input out : List Nat) (henc : 512 ≤ enc.length)
    (hin : ∀ b ∈ input, b < 256) :
    (∀ b, b < 256 →
      (b < 0x80 → symbolOf b = (b : Int)) ∧ (0x80 ≤ b → symbolOf b = (b : Int) - 256) ∧
      (lenIndex b : Int) = symbolOf b + 0x180 ∧ (patIndex b : Int) = symbolOf b + 0x80 ∧
      0x100 ≤ lenIndex b ∧ lenIndex b ≤ 0x1FF ∧ patIndex b ≤ 0xFF ∧
      enc[lenIndex b]? = some (Lengths enc b) ∧ enc[patIndex b]? = some (Patterns enc b) ∧
      ∀ (n mb read : Nat) (o : List Nat),
        (encodeStep enc n mb b read o = none ↔
          ((Lengths enc b + read) % 2 ^ 32 < mb ∧
            CompressSub (patternBytes (Patterns enc b)) read (Lengths enc b) (o.drop 1)
              (outSz o.length) = none))) ∧
    (Compress enc input out = none ↔
      ((∃ pre s post read out1, input = pre ++ s :: post ∧
          runPrefix enc input.length (maxBits out.length) pre 0 out = some (read, out1) ∧
          (Lengths enc s + read) % 2 ^ 32 < maxBits out.length ∧
          CompressSub (patternBytes (Patterns enc s)) read (Lengths enc s) (out1.drop 1)
            (outSz out1.length) = none) ∨
        (out = [] ∧ ∃ read out1,
          runPrefix enc input.length (maxBits out.length) input 0 out = some (read, out1)))) := by
  refine ⟨?_, ?_⟩
  · intro b hb
    have hmod : b % 256 = b := Nat.mod_eq_of_lt hb
    refine ⟨?_, ?_, ?_, ?_, ?_, ?_, ?_, lookup_Lengths enc b henc hb,
      lookup_Patterns enc b henc hb, ?_⟩
    · intro h
      unfold symbolOf
      rw [hmod, if_pos (by omega)]
    · intro h
      unfold symbolOf
      rw [hmod, if_neg (by omega)]
    · unfold symbolOf lenIndex
      rw [hmod]
      split <;> omega
    · unfold symbolOf patIndex
      rw [hmod]
      split <;> omega
    · unfold lenIndex; split <;> omega
    · unfold lenIndex; split <;> omega
    · unfold patIndex; split <;> omega
    · intro n mb read o
      exact encodeStep_none_iff enc n mb b read o henc hb
  · have hne : enc.isEmpty = false := by
      cases enc with
      | nil => simp at henc
      | cons _ _ => rfl
    unfold Compress
    rw [hne]
    simp only [Bool.false_eq_true, if_false]
    rw [encodeLoop_none_iff]
    constructor
    · intro h
      rcases h with ⟨pre, s, post, read1, out1, hsplit, hrun, hnone⟩ | ⟨read1, out1, hrun, hlen⟩
      · have hs : s < 256 := hin s (by rw [hsplit]; simp)
        exact Or.inl ⟨pre, s, post, read1, out1, hsplit, hrun,
          (encodeStep_none_iff enc _ _ s read1 out1 henc hs).1 hnone⟩
      · have hl := runPrefix_length enc _ _ input 0 out read1 out1 hrun
        refine Or.inr ⟨?_, read1, out1, hrun⟩
        exact List.length_eq_zero.1 (by omega)
    · intro h
      rcases h with ⟨pre, s, post, read1, out1, hsplit, hrun, hc⟩ | ⟨hout, read1, out1, hrun⟩
      · have hs : s < 256 := hin s (by rw [hsplit]; simp)
        exact Or.inl ⟨pre, s, post, read1, out1, hsplit, hrun,
          (encodeStep_none_iff enc _ _ s read1 out1 henc hs).2 hc⟩
      · have hl := runPrefix_length enc _ _ input 0 out read1 out1 hrun
        refine Or.inr ⟨read1, out1, hrun, ?_⟩
        rw [hl, hout]
        rfl

set_option maxRecDepth 100000 in
/-- Witness for C11: the byte `0xC1` is the symbol -63, with length index
`0x141` and pattern index `0x41`; with the 512-cell example table the call on
the input `[0xC1, 65]` is defined and packs the 4-bit code of symbol 65. -/
theorem table_index_in_range_witness :
    512 ≤ (tableA 4 5).length ∧ (∀ b ∈ [193, 65], b < 256) ∧
    symbolOf 193 = -63 ∧ lenIndex 193 = 0x141 ∧ patIndex 193 = 0x41 ∧
    Compress (tableA 4 5) [193, 65] [0, 0, 0] = some ⟨Mode.Packed, 12, [1, 5, 0]⟩ ∧
    ((193 < 0x80 → symbolOf 193 = ((193 : Nat) : Int)) ∧
      (0x80 ≤ 193 → symbolOf 193 = ((193 : Nat) : Int) - 256) ∧
      (lenIndex 193 : Int) = symbolOf 193 + 0x180 ∧ (patIndex 193 : Int) = symbolOf 193 + 0x80 ∧
      0x100 ≤ lenIndex 193 ∧ lenIndex 193 ≤ 0x1FF ∧ patIndex 193 ≤ 0xFF ∧
      (tableA 4 5)[lenIndex 193]? = some (Lengths (tableA 4 5) 193) ∧
      (tableA 4 5)[patIndex 193]? = some (Patterns (tableA 4 5) 193) ∧
      ∀ (n mb read : Nat) (o : List Nat),
        (encodeStep (tableA 4 5) n mb 193 read o = none ↔
          ((Lengths (tableA 4 5) 193 + read) % 2 ^ 32 < mb ∧
            CompressSub (patternBytes (Patterns (tableA 4 5) 193)) read
              (Lengths (tableA 4 5) 193) (o.drop 1) (outSz o.length) = none))) :=
  ⟨by rw [tableA_length], by decide, by decide, by decide, by decide, by decide,
    (table_index_in_range (tableA 4 5) [193, 65] [0, 0, 0] (by rw [tableA_length])
      (by decide)).1 193 (by decide)⟩

/-! ## The codec after a failed initialization: claim C13 -/

/-- A successful load comes from an opened file of a positive size that is a
multiple of 4 and yields the cells of that file. -/
theorem LoadTable_true {file : Option (List Nat)} {out : List Nat}
    (h : (LoadTable file out).1 = true) :
    ∃ bytes, file = some bytes ∧ 0 < bytes.length ∧ bytes.length % 4 = 0 ∧
      (LoadTable file out).2 = cellsOfBytes bytes := by
  cases file with
  | none => simp [LoadTable] at h
  | some bytes =>
    unfold LoadTable at h ⊢
    dsimp only at h ⊢
    by_cases hb : bytes.length ≤ 0 ∨ bytes.length % 4 ≠ 0
    · rw [if_pos hb] at h
      simp at h
    · rw [if_neg hb]
      exact ⟨bytes, rfl, by omega, by omega, rfl⟩

/-- A failed load leaves the vector as it was. -/
theorem LoadTable_false {file : Option (List Nat)} {out : List Nat}
    (h : (LoadTable file out).1 = false) : LoadTable file out = (false, out) := by
  cases file with
  | none => rfl
  | some bytes =>
    unfold LoadTable at h ⊢
    dsimp only at h ⊢
    by_cases hb : bytes.length ≤ 0 ∨ bytes.length % 4 ≠ 0
    · rw [if_pos hb]
    · rw [if_neg hb] at h
      simp at h

/-- The three ways `Init` on a fresh codec ends, by the outcome of the two
loads. -/
theorem Init_fresh_cases (compress decompress : Option (List Nat)) :
    ((LoadTable compress []).1 = false →
      Init freshCodec compress decompress = some (false, freshCodec)) ∧
    ((LoadTable compress []).1 = true → (LoadTable decompress []).1 = false →
      Init freshCodec compress decompress = some (false, ⟨(LoadTable compress []).2, []⟩)) ∧
    ((LoadTable compress []).1 = true → (LoadTable decompress []).1 = true →
      ∃ jump, Init freshCodec compress decompress
        = some (true, ⟨(LoadTable compress []).2, jump⟩)) := by
  refine ⟨?_, ?_, ?_⟩
  · intro h
    unfold Init
    dsimp only [freshCodec]
    rw [LoadTable_false h]
  · intro h1 h2
    unfold Init
    dsimp only [freshCodec]
    have e1 : LoadTable compress [] = (true, (LoadTable compress []).2) := by
      rw [← h1]
    rw [e1, LoadTable_false h2]
  · intro h1 h2
    obtain ⟨bytes, -, hpos, hmod, hcells⟩ := LoadTable_true h2
    have e1 : LoadTable compress [] = (true, (LoadTable compress []).2) := by
      rw [← h1]
    have e2 : LoadTable decompress [] = (true, cellsOfBytes bytes) := by
      rw [← hcells, ← h2]
    have hlen := cellsOfBytes_length bytes
    cases hd : cellsOfBytes bytes with
    | nil =>
      rw [hd] at hlen
      simp only [List.length_nil] at hlen
      omega
    | cons d0 ds =>
      unfold Init
      dsimp only [freshCodec]
      rw [e1, e2, hd]
      exact ⟨_, rfl⟩

/-- `Init` on a fresh codec with the file of the example table as
`compress.dat` and no `decompress.dat`. -/
theorem Init_tableA_no_decompress :
    Init freshCodec (some (fileOfCells (tableA 4 5))) none = some (false, ⟨tableA 4 5, []⟩) := by
  have hlen : (fileOfCells (tableA 4 5)).length = 2048 := by
    rw [fileOfCells_length, tableA_length]
  have hcells := cellsOfBytes_fileOfCells (tableA 4 5) (tableA_cells 4 5 (by decide) (by decide))
  unfold Init LoadTable
  dsimp only [freshCodec]
  rw [hlen, if_neg (by decide), hcells]

/-- C13 (amended): on a fresh codec and for any contents (or absence) of the two
table files, `Init` returns failure exactly when `compress.dat` or
`decompress.dat` cannot be opened or has an invalid size.  After a failed
`Init` the jump table is still empty and the encoding table is what the load
of `compress.dat` left in it.  If `compress.dat` failed, the codec is still
fresh and every later `Compress` call returns the sentinel -1 and leaves the
buffer alone.  If `compress.dat` loaded and `decompress.dat` failed, the
encoding table is retained: it holds the `length / 4` cells of `compress.dat`,
it is not empty, and a later `Compress` call does not return through the
empty-table guard but runs the encode loop over that table. -/
theorem Init_failure_state (compress decompress : Option (List Nat)) :
    ((∃ c, Init freshCodec compress decompress = some (false, c)) ↔
      ((LoadTable compress []).1 = false ∨ (LoadTable decompress []).1 = false)) ∧
    ∀ c, Init freshCodec compress decompress = some (false, c) →
      c.jump = [] ∧ c.enc = (LoadTable compress []).2 ∧
      ((LoadTable compress []).1 = false →
        c = freshCodec ∧
        ∀ input out, Compress c.enc input out = some ⟨Mode.Failure, -1, out⟩) ∧
      ((LoadTable compress []).1 = true →
        (LoadTable decompress []).1 = false ∧
        (∃ bytes, compress = some bytes ∧ 0 < bytes.length ∧ bytes.length % 4 = 0 ∧
          c.enc = cellsOfBytes bytes ∧ c.enc.length = bytes.length / 4) ∧
        c.enc ≠ [] ∧
        ∀ input out, Compress c.enc input out
          = encodeLoop c.enc input.length (maxBits out.length) input 0 out) := by
  obtain ⟨hA, hB, hC⟩ := Init_fresh_cases compress decompress
  have hsplit : ∀ c, Init freshCodec compress decompress = some (false, c) →
      ((LoadTable compress []).1 = false ∧ c = freshCodec) ∨
      ((LoadTable compress []).1 = true ∧ (LoadTable decompress []).1 = false ∧
        c = ⟨(LoadTable compress []).2, []⟩) := by
    intro c h
    cases h1 : (LoadTable compress []).1 with
    | false =>
      rw [hA h1] at h
      simp only [Option.some.injEq, Prod.mk.injEq, true_and] at h
      exact Or.inl ⟨rfl, h.symm⟩
    | true =>
      cases h2 : (LoadTable decompress []).1 with
      | false =>
        rw [hB h1 h2] at h
        simp only [Option.some.injEq, Prod.mk.injEq, true_and] at h
        exact Or.inr ⟨rfl, rfl, h.symm⟩
      | true =>
        obtain ⟨jump, hj⟩ := hC h1 h2
        rw [hj] at h
        simp at h
  refine ⟨⟨?_, ?_⟩, ?_⟩
  · rintro ⟨c, h⟩
    rcases hsplit c h with ⟨h1, -⟩ | ⟨-, h2, -⟩
    · exact Or.inl h1
    · exact Or.inr h2
  · intro h
    cases h1 : (LoadTable compress []).1 with
    | false => exact ⟨_, hA h1⟩
    | true =>
      rcases h with h | h
      · rw [h1] at h
        simp at h
      · exact ⟨_, hB h1 h⟩
  · intro c h
    rcases hsplit c h with ⟨h1, hc⟩ | ⟨h1, h2, hc⟩
    · subst hc
      refine ⟨rfl, ?_, fun _ => ⟨rfl, fun input out => rfl⟩, ?_⟩
      · rw [LoadTable_false h1]
        rfl
      · intro h1'
        rw [h1] at h1'
        simp at h1'
    · subst hc
      obtain ⟨bytes, hfile, hpos, hmod, hcells⟩ := LoadTable_true h1
      have hlen : (LoadTable compress []).2.length = bytes.length / 4 := by
        rw [hcells, cellsOfBytes_length]
      have hne : (LoadTable compress []).2 ≠ [] := by
        intro he
        rw [he] at hlen
        simp only [List.length_nil] at hlen
        omega
      refine ⟨rfl, rfl, ?_, fun _ => ⟨h2, ⟨bytes, hfile, hpos, hmod, hcells, hlen⟩, hne, ?_⟩⟩
      · intro h1'
        rw [h1] at h1'
        simp at h1'
      · intro input out
        unfold Compress
        dsimp only
        have he : (LoadTable compress []).2.isEmpty = false := by
          cases hl : (LoadTable compress []).2 with
          | nil => exact absurd hl hne
          | cons _ _ => rfl
        rw [he]
        rfl

set_option maxRecDepth 100000 in
/-- Witness for C13: with the file of the 512-cell example table as
`compress.dat` and a `decompress.dat` that cannot be opened, `Init` on a fresh
codec fails and the codec keeps the 512 cells with an empty jump table. -/
theorem Init_failure_state_witness :
    Init freshCodec (some (fileOfCells (tableA 4 5))) none = some (false, ⟨tableA 4 5, []⟩) ∧
    (tableA 4 5).length = 512 ∧
    ((⟨tableA 4 5, []⟩ : Codec).jump = [] ∧
      (⟨tableA 4 5, []⟩ : Codec).enc = (LoadTable (some (fileOfCells (tableA 4 5))) []).2 ∧
      ((LoadTable (some (fileOfCells (tableA 4 5))) []).1 = false →
        (⟨tableA 4 5, []⟩ : Codec) = freshCodec ∧
        ∀ input out, Compress (⟨tableA 4 5, []⟩ : Codec).enc input out
          = some ⟨Mode.Failure, -1, out⟩) ∧
      ((LoadTable (some (fileOfCells (tableA 4 5))) []).1 = true →
        (LoadTable none []).1 = false ∧
        (∃ bytes, some (fileOfCells (tableA 4 5)) = some bytes ∧ 0 < bytes.length ∧
          bytes.length % 4 = 0 ∧
          (⟨tableA 4 5, []⟩ : Codec).enc = cellsOfBytes bytes ∧
          (⟨tableA 4 5, []⟩ : Codec).enc.length = bytes.length / 4) ∧
        (⟨tableA 4 5, []⟩ : Codec).enc ≠ [] ∧
        ∀ input out, Compress (⟨tableA 4 5, []⟩ : Codec).enc input out
          = encodeLoop (⟨tableA 4 5, []⟩ : Codec).enc input.length (maxBits out.length)
              input 0 out)) :=
  ⟨Init_tableA_no_decompress, tableA_length 4 5,
    (Init_failure_state (some (fileOfCells (tableA 4 5))) none).2 ⟨tableA 4 5, []⟩
      Init_tableA_no_decompress⟩

end ZlibRef
